import Mathlib

/-!
Verification development for the Arvada grammar-inference core
(src/oracle.py, src/start.py, src/replacement_utils.py, src/token_expansion.py).

The Python data structures `ParseNode` (parse_tree.py), `Grammar`/`Rule`
(grammar.py), `UnionFind` (union.py) and `clean_terminal` (input.py) are not
part of the provided sources; they are modelled from the specification,
constrained by how start.py uses them (see the doc comments below).
All algorithmic code is translated directly from the sources.
-/

namespace Arvada

/-- Modelled from the spec: `ParseNode` (parse_tree.py is not in src/).
"Either a terminal (carries an opaque lexeme payload, no children) or a
nonterminal (carries a nonterminal name, an ordered list of child ParseNodes)."
The Python object carries `payload`, `is_terminal` and `children`; `copy` is a
deep copy, which in this pure embedding is the identity. -/
inductive ParseNode where
  | mk (payload : String) (isTerminal : Bool) (children : List ParseNode)
deriving Repr

mutual

def pnBeq : ParseNode → ParseNode → Bool
  | .mk p f cs, .mk p' f' cs' => p == p' && f == f' && pnBeqList cs cs'

def pnBeqList : List ParseNode → List ParseNode → Bool
  | [], [] => true
  | [], _ :: _ => false
  | _ :: _, [] => false
  | a :: as, b :: bs => pnBeq a b && pnBeqList as bs

end

mutual

theorem pnBeq_iff : ∀ a b : ParseNode, pnBeq a b = true ↔ a = b
  | .mk p f cs, .mk p' f' cs' => by
    rw [pnBeq]
    simp only [Bool.and_eq_true, beq_iff_eq, ParseNode.mk.injEq]
    rw [pnBeqList_iff cs cs']
    tauto

theorem pnBeqList_iff : ∀ a b : List ParseNode, pnBeqList a b = true ↔ a = b
  | [], [] => by simp [pnBeqList]
  | [], _ :: _ => by simp [pnBeqList]
  | _ :: _, [] => by simp [pnBeqList]
  | a :: as, b :: bs => by
    rw [pnBeqList]
    simp only [Bool.and_eq_true, List.cons.injEq]
    rw [pnBeq_iff a b, pnBeqList_iff as bs]

end

instance : DecidableEq ParseNode :=
  fun a b => decidable_of_iff (pnBeq a b = true) (pnBeq_iff a b)

def ParseNode.payload : ParseNode → String
  | .mk p _ _ => p

def ParseNode.isTerminal : ParseNode → Bool
  | .mk _ b _ => b

def ParseNode.children : ParseNode → List ParseNode
  | .mk _ _ cs => cs

/-- Convenience constructor for a terminal leaf. -/
def leaf (p : String) : ParseNode := .mk p true []

/-! ### Oracle wrappers (src/oracle.py) -/

/-- Outcome of one Python `parse` call, distinguishing the three observable
behaviours of the caching wrappers: returning `True`, returning `None`
(falling off the end of the function), and raising `ParseException`. -/
inductive ParseOutcome where
  | retTrue
  | retNone
  | raiseParse
deriving DecidableEq, Repr

/-- The oracle wrappers cache results in `self.cache_set`, a dict from the
probed string to a boolean; modelled as an association list. -/
def Cache := List (String × Bool)

def Cache.lookup (c : Cache) (s : String) : Option Bool :=
  (List.find? (fun kv => kv.1 == s) c).map (·.2)

def Cache.insert (c : Cache) (s : String) (b : Bool) : Cache :=
  List.cons (s, b) c

/-- `CachingOracle.parse` (src/oracle.py lines 107-120).  The wrapped Lark
parser is modelled by its acceptance predicate `acc` (`self.oracle.parse`
raises iff the string is rejected).  On a cache hit the call returns `True`
or raises; on a miss it stores the result, raising on rejection and —
faithfully to the source, which has no `return` on that path — returning
`None` on acceptance. -/
def cachingParse (acc : String → Bool) (c : Cache) (s : String) :
    ParseOutcome × Cache :=
  match c.lookup s with
  | some true => (.retTrue, c)
  | some false => (.raiseParse, c)
  | none =>
    if acc s then (.retNone, c.insert s true)
    else (.raiseParse, c.insert s false)

/-- The outcome of the n-th successive `CachingOracle.parse` call on the same
string (n counted from 1), starting from cache `c`. -/
def cachingParseNth (acc : String → Bool) (c : Cache) (s : String) : Nat → ParseOutcome × Cache
  | 0 => (.retNone, c)   -- unused base; calls are counted from 1
  | 1 => cachingParse acc c s
  | n + 1 => cachingParse acc (cachingParseNth acc c s n).2 s

/-- How the MATLAB-engine body of `ExternalOracle._parse_internal` can end:
normal completion, or any raised exception — including an engine error raised
after the work has exceeded the putative 3-second bound.  (A call that blocks
forever never returns an outcome at all; that path is not representable, and a
fortiori never reports accept.) -/
inductive EngineOutcome where
  | ok
  | raised
  | raisedAfterTimeout
deriving DecidableEq, Repr

/-- `ExternalOracle._parse_internal` (src/oracle.py lines 40-75).  The active
code runs the engine calls in a `try:` returning `True`, with a bare
`except:` returning `False`; the subprocess/timeout variant is commented out,
and the `timeout` argument (default 3) is never read. -/
def parseInternal (timeoutArg : Nat) (outcome : EngineOutcome) : Bool :=
  match timeoutArg, outcome with
  | _, .ok => true
  | _, .raised => false
  | _, .raisedAfterTimeout => false

/-- `ExternalOracle.parse` (src/oracle.py lines 77-95): the caching wrapper
around `_parse_internal`; `engine s` is how the MATLAB call on string `s`
ends.  Unlike `CachingOracle.parse`, it returns `True` on first acceptance. -/
def externalParse (engine : String → EngineOutcome) (c : Cache) (s : String) :
    ParseOutcome × Cache :=
  match c.lookup s with
  | some true => (.retTrue, c)
  | some false => (.raiseParse, c)
  | none =>
    let res := parseInternal 3 (engine s)
    if res then (.retTrue, c.insert s true)
    else (.raiseParse, c.insert s false)

/-! ### Nonterminal names (start.py lines 13-25) -/

/-- `START = allocate_tid()` with the counter at 0: the name `t0`. -/
def START : String := "t0"

/-- The name produced by `allocate_tid` when the global counter is `n`:
`'t%d' % n`.  The counter is threaded explicitly through the embedding. -/
def tName (n : Nat) : String := "t" ++ toString n

/-! ### Union-find (union.py, not in src/) -/

/-- Modelled from the spec: union.py is not in src/.  "Union-Find over an
arbitrary set of string elements, with standard `connect`, `find`,
`is_connected`, and `classes()`".  Modelled extensionally as the ordered list
of its equivalence groups; `connect` merges the replacee's group into the
replacer's, and `classes()` lists the groups in order, keyed by their first
element.  The spec fixes deterministic iteration orders. -/
structure UnionFind where
  groups : List (List String)
deriving DecidableEq, Repr

def UnionFind.ofList (xs : List String) : UnionFind :=
  ⟨xs.map (fun x => [x])⟩

def UnionFind.groupOf (uf : UnionFind) (x : String) : List String :=
  (uf.groups.find? (fun g => g.contains x)).getD [x]

def UnionFind.isConnected (uf : UnionFind) (a b : String) : Bool :=
  (uf.groupOf a).contains b

def UnionFind.connect (uf : UnionFind) (a b : String) : UnionFind :=
  if uf.isConnected a b then uf
  else
    let gb := uf.groupOf b
    ⟨(uf.groups.filter (fun g => !g.contains b)).map
      (fun g => if g.contains a then g ++ gb else g)⟩

/-- `uf.classes()`: representative-to-class mapping, in group order. -/
def UnionFind.classesOf (uf : UnionFind) : List (String × List String) :=
  uf.groups.map (fun g => (g.headD "", g))

/-! ### Grammar (grammar.py, not in src/) -/

/-- Modelled from the spec: grammar.py is not in src/.  "Each Rule has a
`start` (LHS nonterminal) and an ordered list of `bodies`; each body is an
ordered sequence of symbol tokens." -/
structure Rule where
  start : String
  bodies : List (List String)
deriving DecidableEq, Repr

/-- Modelled from the spec: grammar.py is not in src/.  "Ordered mapping from
nonterminal name to Rule."  start.py requires the constructor to install an
auxiliary entry keyed `start` (the Lark entry rule `start -> t0`): both
`coalesce` and `coalesce_partial` run `nonterminals.remove("start")` on the
key set, and `minimize` counts the occurrence of `t0` in some rule body.
`add_rule` merges bodies into an existing rule of the same LHS or appends a
new one, preserving insertion order. -/
structure Grammar where
  rules : List Rule
deriving DecidableEq, Repr

def Grammar.keys (g : Grammar) : List String := g.rules.map Rule.start

def Grammar.hasKey (g : Grammar) (k : String) : Bool := g.keys.contains k

def Grammar.lookup (g : Grammar) (k : String) : Option Rule :=
  g.rules.find? (fun r => r.start == k)

def Grammar.addRule (g : Grammar) (r : Rule) : Grammar :=
  if g.hasKey r.start then
    ⟨g.rules.map (fun r0 =>
      if r0.start == r.start then ⟨r0.start, r0.bodies ++ r.bodies⟩ else r0)⟩
  else ⟨g.rules ++ [r]⟩

def Grammar.popRule (g : Grammar) (k : String) : Grammar :=
  ⟨g.rules.filter (fun r => !(r.start == k))⟩

/-- `Grammar(START)`: a fresh grammar holding only the entry rule. -/
def Grammar.mkGrammar (startSym : String) : Grammar :=
  ⟨[⟨"start", [[startSym]]⟩]⟩

/-! ### derive_classes (start.py lines 56-137): the abort check and the
pairwise terminal loop, instrumented with the list of strings sent to the
oracle. -/

/-- Probe a list of candidate strings in order, as the `for example in
replaced_examples: try: oracle.parse(example) except: return False` loop
does: stop at the first rejection.  Returns whether all were accepted
together with the list of strings actually probed. -/
def probeSeq (acc : String → Bool) : List String → Bool × List String
  | [] => (true, [])
  | s :: rest =>
    if acc s then
      let r := probeSeq acc rest
      (r.1, s :: r.2)
    else (false, [s])

/-- The candidate strings built by `replaces(replacer, replacee)` inside
`derive_classes` (start.py lines 76-95): every leaf whose payload equals
`replacee` is swapped to `replacer`, and each example's payloads are
concatenated. -/
def dcReplacedExamples (leaves : List (List ParseNode)) (replacer replacee : String) :
    List String :=
  leaves.map (fun tr =>
    String.join (tr.map (fun l =>
      if l.payload == replacee then replacer else l.payload)))

/-- `replaces` of `derive_classes`, with its probe trace. -/
def dcReplaces (acc : String → Bool) (leaves : List (List ParseNode))
    (replacer replacee : String) : Bool × List String :=
  probeSeq acc (dcReplacedExamples leaves replacer replacee)

/-- The original example strings: concatenated token payloads. -/
def dcExamples (leaves : List (List ParseNode)) : List String :=
  leaves.map (fun tr => String.join (tr.map ParseNode.payload))

/-- All unordered pairs `(l[i], l[j])`, `i < j`, in the source's
double-loop order. -/
def allPairs : List String → List (String × String)
  | [] => []
  | x :: rest => rest.map (fun y => (x, y)) ++ allPairs rest

/-- One iteration of the pairwise terminal loop (start.py lines 110-118),
short-circuiting exactly as `not uf.is_connected(a,b) and replaces(a,b) and
replaces(b,a)` does; the trace accumulates every oracle probe. -/
def dcPairStep (acc : String → Bool) (leaves : List (List ParseNode))
    (st : UnionFind × List String) (p : String × String) : UnionFind × List String :=
  let (uf, tr) := st
  if uf.isConnected p.1 p.2 then (uf, tr)
  else
    let r1 := dcReplaces acc leaves p.1 p.2
    if r1.1 then
      let r2 := dcReplaces acc leaves p.2 p.1
      if r2.1 then (uf.connect p.1 p.2, tr ++ r1.2 ++ r2.2)
      else (uf, tr ++ r1.2 ++ r2.2)
    else (uf, tr ++ r1.2)

/-- `derive_classes` up to the character-class union-find (start.py lines
101-118): the unique-terminal list (Python's `list(set(..))`, modelled in
first-occurrence order per the spec's determinism requirement), the
`replaces('','')` sanity check that aborts the pipeline (`exit(1)`, modelled
as `Except.error`), and the pairwise replacement loop.  The second component
is the full trace of strings sent to the oracle. -/
def deriveClassesRun (acc : String → Bool) (leaves : List (List ParseNode)) :
    Except Unit UnionFind × List String :=
  let terminals := ((leaves.map (fun tr => tr.map ParseNode.payload)).flatten).eraseDups
  let uf0 := UnionFind.ofList terminals
  let r0 := dcReplaces acc leaves "" ""
  if r0.1 then
    let res := (allPairs terminals).foldl (dcPairStep acc leaves) (uf0, [])
    (.ok res.1, r0.2 ++ res.2)
  else
    (.error (), r0.2)

/-! ### remove_repeated_rules (start.py lines 825-839) -/

/-- The body-deduplication loop of `remove_repeated_rules`: walk the bodies
keeping a set of already-seen `''.join(body)` strings; a body whose join was
seen is marked and popped.  (Collecting `remove_idxs` and popping them in
reverse keeps exactly the unmarked bodies, in order.) -/
def rrbGo (seen : List String) : List (List String) → List (List String)
  | [] => []
  | b :: rest =>
    if String.join b ∈ seen then rrbGo seen rest
    else b :: rrbGo (String.join b :: seen) rest

def removeRepeatedBodies (bodies : List (List String)) : List (List String) :=
  rrbGo [] bodies

def removeRepeatedRules (g : Grammar) : Grammar :=
  ⟨g.rules.map (fun r => ⟨r.start, removeRepeatedBodies r.bodies⟩)⟩

/-- Keep the first body of each join-key.  This is the specification-side
restatement of the duplicate-body pass (the amended claim's wording): a body
is kept exactly when no earlier body has the same symbol concatenation. -/
def keepFirstByJoin : List (List String) → List (List String)
  | [] => []
  | b :: rest =>
    b :: keepFirstByJoin (rest.filter (fun b' => !(String.join b' == String.join b)))
termination_by l => l.length
decreasing_by
  simp only [List.length_cons]
  exact Nat.lt_succ_of_le (List.length_filter_le _ rest)

/-! ### minimize (start.py lines 817-909) -/

/-- The maps `X` and `Y` of `minimize`: nonterminal to replacement symbol
list, insertion-ordered. -/
abbrev SubstMap := List (String × List String)

def SubstMap.lookupM (m : SubstMap) (k : String) : Option (List String) :=
  (List.find? (fun kv => kv.1 == k) m).map (·.2)

/-- `X[elem][0] if elem in X else elem` for the single symbol of a unit
body. -/
def xResolve (x : SubstMap) (e : String) : String :=
  match x.lookupM e with
  | some l => l.headD e
  | none => e

/-- One pass of the `while updated` loop building `X` (start.py lines
876-885): a rule with a single body holding a single symbol that is not a
grammar key (a terminal) or is already in `X` adds its LHS to `X`, unless the
LHS is already there or is START. -/
def xPass (g : Grammar) (x0 : SubstMap) : SubstMap × Bool :=
  g.rules.foldl (fun (st : SubstMap × Bool) r =>
    match r.bodies with
    | [[e]] =>
      if (!(g.hasKey e) || (SubstMap.lookupM st.1 e).isSome) &&
          !(SubstMap.lookupM st.1 r.start).isSome && !(r.start == START) then
        (st.1 ++ [(r.start, [xResolve st.1 e])], true)
      else st
    | _ => st) (x0, false)

/-- The `while updated` loop: every productive pass adds at least one entry
and entries are keyed by distinct rule LHSs, so `rules.length + 1` passes
always reach the source loop's fixed point. -/
def computeXGo (g : Grammar) : Nat → SubstMap → SubstMap
  | 0, x => x
  | fuel + 1, x =>
    let r := xPass g x
    if r.2 then computeXGo g fuel r.1 else r.1

def computeX (g : Grammar) : SubstMap :=
  computeXGo g (g.rules.length + 1) []

/-- Body substitution inside `update` (start.py lines 852-859): repeatedly
locate the first symbol that is a key of the map and splice in its value.
The source's `while any(to_fix)` loop has no termination guarantee on cyclic
maps (it diverges there); this embedding bounds it by fuel, ample for every
run considered in this development. -/
def substBody (m : SubstMap) : Nat → List String → List String
  | 0, body => body
  | fuel + 1, body =>
    match body.findIdx? (fun e => (SubstMap.lookupM m e).isSome) with
    | none => body
    | some i =>
      substBody m fuel
        (body.take i ++ ((SubstMap.lookupM m (body.getD i "")).getD []) ++ body.drop (i + 1))

/-- Total symbol count of a grammar (`size()` in the spec's sense). -/
def grammarSyms (g : Grammar) : Nat :=
  (g.rules.map (fun r => (r.bodies.map List.length).sum)).sum

def mapSyms (m : SubstMap) : Nat :=
  (List.map (fun kv : String × List String => kv.2.length + 1) m).sum

def substFuel (g : Grammar) (m : SubstMap) : Nat :=
  (grammarSyms g + 2) * (mapSyms m + 2) * 4

/-- `update(grammar, map)` (start.py lines 841-866): substitute every
occurrence of a map key in every body, then drop the rules defining map
keys.  (The source also asserts `START not in map`, which holds for the `X`
and `Y` maps by construction.) -/
def updateWithMap (g : Grammar) (m : SubstMap) (fuel : Nat) : Grammar :=
  let g1 : Grammar := ⟨g.rules.map (fun r => ⟨r.start, r.bodies.map (substBody m fuel)⟩)⟩
  ⟨g1.rules.filter (fun r => !(SubstMap.lookupM m r.start).isSome)⟩

/-- Occurrences of `nt` across all rule bodies; `counts` only tracks symbols
that are grammar keys, which the callers below respect. -/
def countOcc (g : Grammar) (nt : String) : Nat :=
  (g.rules.map (fun r => (r.bodies.map (fun b => b.countP (fun s => s == nt))).sum)).sum

/-- The symbols of all bodies in rule/body/position order, as the `counts`
dict traversal visits them. -/
def symbolsInOrder (g : Grammar) : List String :=
  (g.rules.map (fun r => r.bodies.flatten)).flatten

/-- `used_once` (start.py lines 894-903): grammar-key symbols in first-count
order whose total count is 1, excluding START. -/
def usedOnce (g : Grammar) : List String :=
  (((symbolsInOrder g).filter (fun s => g.hasKey s)).eraseDups).filter
    (fun k => countOcc g k == 1 && !(k == START))

/-- The map `Y` (start.py line 904): single-use nonterminals with exactly one
body. -/
def computeY (g : Grammar) : SubstMap :=
  (usedOnce g).filterMap (fun k =>
    match g.lookup k with
    | some r => if r.bodies.length == 1 then some (k, r.bodies.headD []) else none
    | none => none)

/-- `minimize` (start.py lines 817-909): duplicate-body removal, the `X`
unit-chain inlining, the `Y` single-use inlining, and a final duplicate-body
pass. -/
def minimize (g : Grammar) : Grammar :=
  let g1 := removeRepeatedRules g
  let x := computeX g1
  let g2 := updateWithMap g1 x (substFuel g1 x)
  let y := computeY g2
  let g3 := updateWithMap g2 y (substFuel g2 y)
  removeRepeatedRules g3

/-- The grammar of §8's idempotence law counterexample: `t2` is used once
and inlined into `t0`, after which the final duplicate-body pass merges
`t0`'s two bodies and drops `t1`'s use count to one. -/
def gMinCx : Grammar :=
  ⟨[⟨"start", [["t0"]]⟩,
    ⟨"t0", [["t1", "b"], ["t2"]]⟩,
    ⟨"t2", [["t1", "b"]]⟩,
    ⟨"t1", [["x", "y"]]⟩]⟩

/-! ### coalesce (start.py lines 618-814) -/

mutual

/-- `node_string` / `derived_string`: the yield of a tree. -/
def nodeString : ParseNode → String
  | .mk p true _ => p
  | .mk _ false cs => nodeStringList cs

def nodeStringList : List ParseNode → String
  | [] => ""
  | c :: cs => nodeString c ++ nodeStringList cs

end

mutual

/-- `replaced_string` (start.py lines 639-650): the yield of the tree with
every subtree labelled `replaceeNt` replaced by `replacerStr`.  As in the
source, the terminal test comes first, so a terminal whose payload happens to
equal the nonterminal name is not replaced. -/
def replacedString (replacerStr replaceeNt : String) : ParseNode → String
  | .mk p true _ => p
  | .mk p false cs =>
    if p == replaceeNt then replacerStr
    else replacedStringList replacerStr replaceeNt cs

def replacedStringList (replacerStr replaceeNt : String) : List ParseNode → String
  | [] => ""
  | c :: cs =>
    replacedString replacerStr replaceeNt c ++ replacedStringList replacerStr replaceeNt cs

end

mutual

/-- `replacer_strings` (start.py lines 652-672): the strings derivable from
`replacerNt` in a tree.  A matching node contributes its yield and, as in the
source, is not searched further. -/
def replacerStrings (replacerNt : String) : ParseNode → List String
  | .mk _ true _ => []
  | .mk p false cs =>
    if p == replacerNt then [nodeString (.mk p false cs)]
    else replacerStringsList replacerNt cs

def replacerStringsList (replacerNt : String) : List ParseNode → List String
  | [] => []
  | c :: cs => replacerStrings replacerNt c ++ replacerStringsList replacerNt cs

end

/-- `replaces` of `coalesce` (start.py lines 674-702): every string derivable
from `replacer` anywhere in the trees, substituted at every occurrence of
`replacee` in every tree, must be accepted.  The source deduplicates the
probe set; only joint acceptance matters here, which deduplication does not
change. -/
def coReplaces (acc : String → Bool) (trees : List ParseNode)
    (replacer replacee : String) : Bool :=
  let strs := (trees.map (replacerStrings replacer)).flatten
  ((strs.map (fun s => trees.map (fun t => replacedString s replacee t))).flatten).all acc

/-- `nonterminals = set(grammar.rules.keys()); nonterminals.remove("start")`
(start.py lines 705-707 and 561-563): the rule keys without the auxiliary
`start` entry — note that START = t0 remains a member.  Python's set order is
modelled as insertion order, per the spec's determinism requirement. -/
def nonStartKeys (g : Grammar) : List String :=
  g.keys.filter (fun k => !(k == "start"))

/-- The pair list of `coalesce` (start.py lines 710-722): all `(target, *)`
pairs when a coalesce target is given, else all unordered pairs in order. -/
def coalescePairs (nonterminals : List String) (target : Option String) :
    List (String × String) :=
  match target with
  | some first => (nonterminals.filter (fun s => !(s == first))).map (fun second => (first, second))
  | none => allPairs nonterminals

/-- One iteration of the coalescing pair loop (start.py lines 724-733); the
third component records the pairs on which `uf.connect` was invoked. -/
def coalesceLoopStep (acc : String → Bool) (trees : List ParseNode)
    (st : UnionFind × Bool × List (String × String)) (p : String × String) :
    UnionFind × Bool × List (String × String) :=
  if !(st.1.isConnected p.1 p.2) && coReplaces acc trees p.1 p.2 &&
      coReplaces acc trees p.2 p.1 then
    (st.1.connect p.1 p.2, true, st.2.2 ++ [p])
  else st

def coalesceLoop (acc : String → Bool) (trees : List ParseNode)
    (pairs : List (String × String)) (uf0 : UnionFind) :
    UnionFind × Bool × List (String × String) :=
  pairs.foldl (coalesceLoopStep acc trees) (uf0, false, [])

/-- The `classes` dict of `coalesce` (start.py lines 737-749): one entry per
union-find class of size > 1, named START when the class contains START and a
freshly allocated nonterminal otherwise.  Returns the new counter as well. -/
def coalesceClassesGo : List (String × List String) → Nat → List (String × List String) × Nat
  | [], tid => ([], tid)
  | (_, nts) :: rest, tid =>
    if nts.length > 1 then
      let cn := if nts.contains START then START else tName tid
      let tid1 := if nts.contains START then tid else tid + 1
      let r := coalesceClassesGo rest tid1
      ((cn, nts) :: r.1, r.2)
    else
      coalesceClassesGo rest tid

/-- The classes a run of `coalesce` builds, exposed so that freshness
hypotheses can speak about them. -/
def coalesceClassesOf (acc : String → Bool) (trees : List ParseNode) (g : Grammar)
    (target : Option String) (tid : Nat) : List (String × List String) × Nat :=
  let nts := nonStartKeys g
  coalesceClassesGo
    ((coalesceLoop acc trees (coalescePairs nts target) (UnionFind.ofList nts)).1.classesOf)
    tid

/-- `get_class`: class members map to their class nonterminal, everything
else (the singleton classes) to itself. -/
def getClassFn (classes : List (String × List String)) (s : String) : String :=
  match ((classes.map (fun c => c.2.map (fun m => (m, c.1)))).flatten).find?
      (fun kv => kv.1 == s) with
  | some kv => kv.2
  | none => s

def rewriteBodySym (ks : List String) (getC : String → String) (s : String) : String :=
  if ks.contains s then getC s else s

/-- The grammar body rewrite of `coalesce` (start.py lines 753-760): every
body symbol that is a rule key is mapped through `get_class`; the `start`
entry is skipped. -/
def rewriteGrammar (g : Grammar) (getC : String → String) : Grammar :=
  ⟨g.rules.map (fun r =>
    if r.start == "start" then r
    else ⟨r.start, r.bodies.map (fun b => b.map (rewriteBodySym g.keys getC))⟩)⟩

/-- One step of the member-popping fold inside the class merge: pop the
member's rule and collect its bodies, dropping any body equal to
`[class_nt]` ("Remove infinite recursions"). -/
def popCollectStep (cn : String) (st : Grammar × List (List String)) (nt : String) :
    Grammar × List (List String) :=
  match st.1.lookup nt with
  | some r => (st.1.popRule nt, st.2 ++ r.bodies.filter (fun b => !(b == [cn])))
  | none => (st.1.popRule nt, st.2)

/-- Merging one class (start.py lines 803-812): pop every member rule,
collect their (already rewritten) bodies dropping the `[class_nt]` body, and
add the merged rule. -/
def mergeClassInto (g : Grammar) (cn : String) (nts : List String) : Grammar :=
  let pg := nts.foldl (popCollectStep cn) (g, [])
  pg.1.addRule ⟨cn, pg.2⟩

def mergeClasses (g : Grammar) (classes : List (String × List String)) : Grammar :=
  classes.foldl (fun g0 c => mergeClassInto g0 c.1 c.2) g

mutual

/-- `replace_coalesced_nonterminals` (start.py lines 765-776). -/
def replaceCoalescedPayloads (getC : String → String) : ParseNode → ParseNode
  | .mk p true cs => .mk p true cs
  | .mk p false cs => .mk (getC p) false (replaceCoalescedPayloadsList getC cs)

def replaceCoalescedPayloadsList (getC : String → String) : List ParseNode → List ParseNode
  | [] => []
  | c :: cs => replaceCoalescedPayloads getC c :: replaceCoalescedPayloadsList getC cs

end

mutual

def treeSize : ParseNode → Nat
  | .mk _ _ cs => 1 + treeSizeList cs

def treeSizeList : List ParseNode → Nat
  | [] => 0
  | c :: cs => treeSize c + treeSizeList cs

end

/-- The `while` loop of `fix_double_indirection` (start.py lines 786-790):
while the node has exactly one child with the same payload, splice in the
grandchildren.  Bounded by fuel; the chain is no longer than the tree is
deep, so the callers' fuel is always sufficient. -/
def collapseChain (p : String) : Nat → List ParseNode → List ParseNode
  | 0, cs => cs
  | fuel + 1, cs =>
    match cs with
    | [c] => if c.payload == p then collapseChain p fuel c.children else [c]
    | _ => cs

/-- `fix_double_indirection` (start.py lines 778-793), fuelled by tree
size. -/
def fixDouble : Nat → ParseNode → ParseNode
  | 0, t => t
  | fuel + 1, t =>
    if t.isTerminal then t
    else
      let cs := collapseChain t.payload (fuel + 1) t.children
      .mk t.payload false (cs.map (fixDouble fuel))

/-- `coalesce` (start.py lines 618-814).  Returns the updated grammar, the
updated trees, whether any pair was coalesced, and the nonterminal counter
after the run. -/
def coalesce (acc : String → Bool) (trees : List ParseNode) (g : Grammar)
    (target : Option String) (tid : Nat) :
    Grammar × List ParseNode × Bool × Nat :=
  let nts := nonStartKeys g
  let lr := coalesceLoop acc trees (coalescePairs nts target) (UnionFind.ofList nts)
  let caused := lr.2.1
  let cl := coalesceClassesOf acc trees g target tid
  let getC := getClassFn cl.1
  let g1 := rewriteGrammar g getC
  let newTrees :=
    if caused then
      trees.map (fun t => fixDouble (treeSize t + 1) (replaceCoalescedPayloads getC t))
    else trees
  let g2 := mergeClasses g1 cl.1
  (g2, newTrees, caused, cl.2)

/-! ### Concrete scenario: one tree over three leaf nonterminals -/

/-- `t0 -> ta tb tc` over leaves `A B C`, the vehicle for the coalesce
counterexamples. -/
def treeABC : ParseNode :=
  .mk "t0" false [.mk "ta" false [leaf "A"], .mk "tb" false [leaf "B"],
    .mk "tc" false [leaf "C"]]

def gABC : Grammar :=
  ⟨[⟨"start", [["t0"]]⟩,
    ⟨"t0", [["ta", "tb", "tc"]]⟩,
    ⟨"ta", [["A"]]⟩,
    ⟨"tb", [["B"]]⟩,
    ⟨"tc", [["C"]]⟩]⟩

/-- Oracle for the C8 counterexample: `ta` and `tc` are mutually replaceable
on the original trees; after they merge into one class nonterminal, `tb`
becomes mutually replaceable with the merged class (the probe `BBB`
substitutes at the former `ta` and `tc` positions simultaneously, a string
the first run never sends). -/
def accC8 (s : String) : Bool :=
  ["ABC", "AAC", "ABA", "CBC", "ACC", "BBB"].contains s

/-- Oracle for the C2 counterexample: the pair `(ta, tb)` fails its own
mutual test (`BBC` is rejected), but `ta ~ tc` and `tb ~ tc` both pass, so
transitivity puts `ta` and `tb` in one class anyway. -/
def accC2 (s : String) : Bool :=
  ["ABC", "AAC", "ABA", "CBC", "ABB", "ACC"].contains s

/-! ### coalesce_partial (start.py lines 389-615), named `coalescePart` here.
Its helper `replace_in_all_occs` coincides with `coalesce`'s
`replaced_string` and its `get_all_derivable_strings` with
`replacer_strings`; the embedding reuses those definitions. -/

mutual

/-- `replace_in_rule` (start.py lines 400-416): the yield of the tree where,
at every node whose payload is the rule LHS and whose direct children's
payloads equal the body, the child at `posn` is replaced by `rs`.  A node
whose payload matches but whose body does not falls through to plain
recursion, exactly as the source does. -/
def replaceInRule (rs ruleStart : String) (body : List String) (posn : Nat) :
    ParseNode → String
  | .mk p true _ => p
  | .mk p false cs =>
    if p == ruleStart && body == cs.map ParseNode.payload then
      replaceInRuleIdx rs ruleStart body posn 0 cs
    else
      replaceInRuleList rs ruleStart body posn cs

def replaceInRuleIdx (rs ruleStart : String) (body : List String) (posn : Nat) :
    Nat → List ParseNode → String
  | _, [] => ""
  | i, c :: cs =>
    (if i == posn then rs else replaceInRule rs ruleStart body posn c) ++
      replaceInRuleIdx rs ruleStart body posn (i + 1) cs

def replaceInRuleList (rs ruleStart : String) (body : List String) (posn : Nat) :
    List ParseNode → String
  | [] => ""
  | c :: cs =>
    replaceInRule rs ruleStart body posn c ++ replaceInRuleList rs ruleStart body posn cs

end

/-- The `partial_replacement_locs` enumeration (start.py lines 464-469):
every `((rule_start, body), idx)` with `body[idx] == partNt`, in rule, body,
index order. -/
def ruleLocs (g : Grammar) (partNt : String) : List ((String × List String) × Nat) :=
  (g.rules.map (fun r =>
    (r.bodies.map (fun b =>
      (b.enum.filterMap (fun iv =>
        if iv.2 == partNt then some ((r.start, b), iv.1) else none)))).flatten)).flatten

/-- `partially_coalescable` (start.py lines 454-506): if `fullNt` can be
replaced by every string derivable from `partNt` in every tree, return the
rule positions of `partNt` at which every string derivable from `fullNt` is
accepted; otherwise the empty list.  (The source also asserts that some
string is derivable from `fullNt`; that holds in every run considered
here.) -/
def partCoalescable (acc : String → Bool) (g : Grammar) (trees : List ParseNode)
    (fullNt partNt : String) : List ((String × List String) × Nat) :=
  let locs := ruleLocs g partNt
  let everyStrs := (trees.map (replacerStrings fullNt)).flatten
  let inSomeStrs := (trees.map (replacerStrings partNt)).flatten
  let everyOK := trees.all (fun t => inSomeStrs.all (fun s => acc (replacedString s fullNt t)))
  if everyOK then
    locs.filter (fun loc => everyStrs.all (fun s => trees.all (fun t =>
      acc (replaceInRule s loc.1.1 loc.1.2 loc.2 t))))
  else []

/-- `fully_replaceable` (start.py lines 565-568): all non-`start` rule keys,
or just the bubble target's nonterminal. -/
def fullyReplaceableOf (g : Grammar) (target : Option String) : List String :=
  match target with
  | some t => [t]
  | none => nonStartKeys g

/-- The membership test of `partially_replaceable` (start.py lines 570-572):
exactly one body, of length 1, whose symbol is not in `nonterminals`. -/
def isSingleTerminalRule (g : Grammar) (nt : String) : Bool :=
  match g.lookup nt with
  | some r =>
    match r.bodies with
    | [[s]] => !((nonStartKeys g).contains s)
    | _ => false
  | none => false

def partReplaceableOf (g : Grammar) : List String :=
  (nonStartKeys g).filter (isSingleTerminalRule g)

/-- One `replacements` entry: the partially-replaced nonterminals and the
collected positions for one fully-replaced nonterminal. -/
abbrev ReplEntry := String × (List String × List ((String × List String) × Nat))

/-- The `replacements` dict accumulation (start.py lines 575-586). -/
def replAdd (m : List ReplEntry) (f p : String)
    (locs : List ((String × List String) × Nat)) : List ReplEntry :=
  if (m.find? (fun kv => kv.1 == f)).isSome then
    m.map (fun kv => if kv.1 == f then (kv.1, (kv.2.1 ++ [p], kv.2.2 ++ locs)) else kv)
  else m ++ [(f, ([p], locs))]

def coalescePartCollect (acc : String → Bool) (g : Grammar) (trees : List ParseNode)
    (fullList partList : List String) : List ReplEntry :=
  fullList.foldl (fun m0 f =>
    partList.foldl (fun m1 p =>
      if f == p then m1
      else
        let rp := partCoalescable acc g trees f p
        if rp.length > 0 then replAdd m1 f p rp else m1) m0) []

/-- One position update of `update_grammar` (start.py lines 514-517):
`bodies.index(body)` locates the first body equal to the recorded one, and
its symbol at `posn` is set to `newNt`.  (The source locates the recorded
body list by identity; at every run considered here the recorded body is
still present unchanged, so first-equality matches it.) -/
def updateGrammarLoc (g : Grammar) (loc : (String × List String) × Nat)
    (newNt : String) : Grammar :=
  ⟨g.rules.map (fun r =>
    if r.start == loc.1.1 then
      match r.bodies.findIdx? (fun b => b == loc.1.2) with
      | some i => ⟨r.start, r.bodies.set i (List.set (r.bodies.getD i []) loc.2 newNt)⟩
      | none => r
    else r)⟩

/-- The per-rule duplicate-body fixup of `update_grammar` (start.py lines
523-529), by sequence equality. -/
def dedupSeqGo (seen : List (List String)) : List (List String) → List (List String)
  | [] => []
  | b :: rest =>
    if b ∈ seen then dedupSeqGo seen rest
    else b :: dedupSeqGo (seen ++ [b]) rest

/-- `update_grammar` (start.py lines 508-529): set the collected positions to
`newNt`, rewrite every occurrence of `fullNt` to `newNt`, and deduplicate
bodies within each rule. -/
def updateGrammarPart (g : Grammar) (locs : List ((String × List String) × Nat))
    (fullNt newNt : String) : Grammar :=
  let g1 := locs.foldl (fun g0 loc => updateGrammarLoc g0 loc newNt) g
  let g2 : Grammar := ⟨g1.rules.map (fun r =>
    ⟨r.start, r.bodies.map (fun b => b.map (fun s => if s == fullNt then newNt else s))⟩)⟩
  ⟨g2.rules.map (fun r => ⟨r.start, dedupSeqGo [] r.bodies⟩)⟩

/-- `tree_replacement_positions` (start.py lines 595-598): positions grouped
by `(rule_start, body)`. -/
def tlocsOf (locs : List ((String × List String) × Nat)) :
    List ((String × List String) × List Nat) :=
  locs.foldl (fun m loc =>
    if (m.find? (fun kv => kv.1 == loc.1)).isSome then
      m.map (fun kv => if kv.1 == loc.1 then (kv.1, kv.2 ++ [loc.2]) else kv)
    else m ++ [(loc.1, [loc.2])]) []

def payloadSet : ParseNode → String → ParseNode
  | .mk _ b cs, q => .mk q b cs

/-- The `for posn in posns: prev_child.payload = new_nt` loop of
`updated_tree`. -/
def setChildPayloads (newNt : String) (posns : List Nat) (cs : List ParseNode) :
    List ParseNode :=
  posns.foldl (fun cs0 posn => cs0.set posn (payloadSet (cs0.getD posn (leaf "")) newNt)) cs

mutual

/-- `updated_tree` (start.py lines 531-550): recurse into the children first,
then rewrite the recorded rule positions (matched against the updated
children's payloads, as the source does) and finally the node's own payload
when it equals the fully-replaced nonterminal. -/
def updatedTree (tlocs : List ((String × List String) × List Nat))
    (fullNt newNt : String) : ParseNode → ParseNode
  | .mk p true cs => .mk p true cs
  | .mk p false cs =>
    let cs1 := updatedTreeList tlocs fullNt newNt cs
    let cs2 := match tlocs.find? (fun kv => kv.1 == (p, cs1.map ParseNode.payload)) with
      | some kv => setChildPayloads newNt kv.2 cs1
      | none => cs1
    .mk (if p == fullNt then newNt else p) false cs2

def updatedTreeList (tlocs : List ((String × List String) × List Nat))
    (fullNt newNt : String) : List ParseNode → List ParseNode
  | [] => []
  | c :: cs => updatedTree tlocs fullNt newNt c :: updatedTreeList tlocs fullNt newNt cs

end

/-- The grammar/tree update for one `replacements` entry (start.py lines
590-613). -/
def coalescePartApply (st : Grammar × List ParseNode × Nat) (repl : ReplEntry) :
    Grammar × List ParseNode × Nat :=
  let f := repl.1
  let tlocs := tlocsOf repl.2.2
  let newNt := if f == START then START else tName st.2.2
  let tid1 := if f == START then st.2.2 else st.2.2 + 1
  let g1 := updateGrammarPart st.1 repl.2.2 f newNt
  let altBodies := ((g1.lookup f).map Rule.bodies).getD [] ++
    (repl.2.1.map (fun p => ((g1.lookup p).map Rule.bodies).getD [])).flatten
  let g2 := (g1.popRule f).addRule ⟨newNt, altBodies⟩
  (g2, st.2.1.map (updatedTree tlocs f newNt), tid1)

/-- `coalesce_partial` (start.py lines 389-615): collect the partially
coalescable pairs on the incoming grammar and trees, then apply the
replacements in order.  Returns the grammar, trees, the `replacements`
map and the nonterminal counter. -/
def coalescePart (acc : String → Bool) (trees : List ParseNode) (g : Grammar)
    (target : Option String) (tid : Nat) :
    Grammar × List ParseNode × List ReplEntry × Nat :=
  let repls := coalescePartCollect acc g trees (fullyReplaceableOf g target)
    (partReplaceableOf g)
  let res := repls.foldl coalescePartApply (g, trees, tid)
  (res.1, res.2.1, repls, res.2.2)

/-! ### Concrete scenario for coalesce_partial -/

/-- `t0 -> tF tQ`, `tF -> tP`, `tP -> p`, `tQ -> q`: the fully-replaced
`tF`'s rule has the body `[tP]`, which is itself a collected replacement
position. -/
def treePQ : ParseNode :=
  .mk "t0" false [.mk "tF" false [.mk "tP" false [leaf "p"]], .mk "tQ" false [leaf "q"]]

def gPQ : Grammar :=
  ⟨[⟨"start", [["t0"]]⟩,
    ⟨"t0", [["tF", "tQ"]]⟩,
    ⟨"tF", [["tP"]]⟩,
    ⟨"tP", [["p"]]⟩,
    ⟨"tQ", [["q"]]⟩]⟩

/-- The oracle accepting exactly the example string `pq`. -/
def accPQ (s : String) : Bool := s == "pq"

/-- Modelled from the spec's words, for comparison with the source's
candidate set: "the non-START nonterminals" — the rule keys that are neither
the auxiliary `start` entry nor START = `t0`. -/
def specNonStartNts (g : Grammar) : List String :=
  g.keys.filter (fun k => !(k == "start") && !(k == START))

/-! ### group (start.py lines 140-195) -/

/-- One entry of the `groups` dict: the key (the concatenation of the
sub-range's payloads), the stored sub-list (the first-seen one), the fresh
nonterminal allocated for the key, and the occurrence count. -/
structure GEntry where
  key : String
  tmpl : List ParseNode
  tid : String
  count : Nat
deriving DecidableEq, Repr

/-- The state threaded through the enumeration: the `groups` dict (insertion
ordered), the `full_bubbles` defaultdict, and the nonterminal counter. -/
structure GState where
  entries : List GEntry
  fb : List (String × Nat)
  next : Nat
deriving DecidableEq, Repr

def joinPayloads (l : List ParseNode) : String :=
  String.join (l.map ParseNode.payload)

/-- The contiguous sub-ranges `children[i:j]` with `j ≥ i + 2`, in the
source's `i` ascending / `j` ascending order, each flagged with whether it is
the full child list (`i == 0 and j == len`). -/
def subrangesWithFull (cs : List ParseNode) : List (List ParseNode × Bool) :=
  ((List.range cs.length).map (fun i =>
    (List.range' 2 (cs.length - i - 1)).map (fun L =>
      ((cs.drop i).take L, i == 0 && L == cs.length)))).flatten

/-- `full_bubbles[key] += 1` on a defaultdict(int). -/
def fbBump (fb : List (String × Nat)) (k : String) : List (String × Nat) :=
  if (fb.find? (fun kv => kv.1 == k)).isSome then
    fb.map (fun kv => if kv.1 == k then (kv.1, kv.2 + 1) else kv)
  else fb ++ [(k, 1)]

/-- Processing one sub-range (start.py lines 166-174): bump `full_bubbles`
when the range is full; increment the count of an existing key (keeping the
stored sub-list and tid, as the source's tuple re-binding does) or insert a
fresh entry with a newly allocated nonterminal. -/
def gsAdd (st : GState) (sub : List ParseNode) (isFull : Bool) : GState :=
  let k := joinPayloads sub
  let fb1 := if isFull then fbBump st.fb k else st.fb
  if (st.entries.find? (fun e => e.key == k)).isSome then
    ⟨st.entries.map (fun e => if e.key == k then ⟨e.key, e.tmpl, e.tid, e.count + 1⟩ else e),
     fb1, st.next⟩
  else
    ⟨st.entries ++ [⟨k, sub, tName st.next, 1⟩], fb1, st.next + 1⟩

def processChildren (cs : List ParseNode) (st : GState) : GState :=
  (subrangesWithFull cs).foldl (fun s p => gsAdd s p.1 p.2) st

mutual

/-- `add_groups_for_tree` (start.py lines 159-179): enumerate the current
node's child sub-ranges, then recurse into the non-terminal children in
order. -/
def addGroupsForTree : ParseNode → GState → GState
  | .mk _ _ cs, st => addGroupsList cs (processChildren cs st)

def addGroupsList : List ParseNode → GState → GState
  | [], st => st
  | c :: cs, st =>
    addGroupsList cs (if c.isTerminal then st else addGroupsForTree c st)

end

/-- The state after enumerating all trees, starting the allocator at
`tid`. -/
def rawState (trees : List ParseNode) (tid : Nat) : GState :=
  trees.foldl (fun st t => addGroupsForTree t st) ⟨[], [], tid⟩

def eraseKey (entries : List GEntry) (k : String) : List GEntry :=
  entries.filter (fun e => !(e.key == k))

/-- One iteration of the full-bubble pruning loop (start.py lines 187-189):
pop the grouping of this `full_bubbles` key when its count equals the
full-bubble count.  (Every `full_bubbles` key is a `groups` key, so the
source's `groups[bubble]` lookup always succeeds; the unreachable `none`
branch is a no-op.) -/
def pruneStep (es : List GEntry) (kv : String × Nat) : List GEntry :=
  match es.find? (fun e => e.key == kv.1) with
  | some e => if e.count == kv.2 then eraseKey es kv.1 else es
  | none => es

def pruneFB (entries : List GEntry) (fb : List (String × Nat)) : List GEntry :=
  fb.foldl pruneStep entries

/-- The sort key order of start.py line 194: count descending, then template
length descending (Python's `reverse=True` on the `(count, len)` key). -/
def gKeyGe (a b : GEntry) : Bool :=
  decide (b.count < a.count) ||
    (a.count == b.count && decide (b.tmpl.length ≤ a.tmpl.length))

/-- Stable descending insertion: a later element goes after every
already-placed element whose key is ≥ its own, reproducing the stability of
Python's `sorted`. -/
def insertDesc (x : GEntry) : List GEntry → List GEntry
  | [] => [x]
  | y :: ys => if gKeyGe y x then y :: insertDesc x ys else x :: y :: ys

def sortDesc (l : List GEntry) : List GEntry :=
  l.foldl (fun acc x => insertDesc x acc) []

/-- `group` (start.py lines 140-195): enumerate, prune the full bubbles,
sort. -/
def group (trees : List ParseNode) (tid : Nat) : List GEntry :=
  let st := rawState trees tid
  sortDesc (pruneFB st.entries st.fb)

def fbLookup (fb : List (String × Nat)) (k : String) : Option Nat :=
  (fb.find? (fun kv => kv.1 == k)).map (·.2)

mutual

/-- The nodes on which `add_groups_for_tree` enumerates sub-ranges: the node
itself and, recursively, its non-terminal descendants. -/
def visitedNodes : ParseNode → List ParseNode
  | .mk p b cs => .mk p b cs :: visitedList cs

def visitedList : List ParseNode → List ParseNode
  | [] => []
  | c :: cs => (if c.isTerminal then [] else visitedNodes c) ++ visitedList cs

end

/-- `tmpl` is a contiguous child sub-range of length ≥ 2 of some node the
enumeration visits. -/
def isSubrangeOf (trees : List ParseNode) (tmpl : List ParseNode) : Prop :=
  ∃ t ∈ trees, ∃ n ∈ visitedNodes t, ∃ i L, 2 ≤ L ∧ i + L ≤ n.children.length ∧
    tmpl = (n.children.drop i).take L

/-- What the enumeration guarantees of every `groups` entry: the stored
template has length ≥ 2, the key is its payload concatenation, and it is a
visited child sub-range. -/
def entryOK (trees : List ParseNode) (e : GEntry) : Prop :=
  2 ≤ e.tmpl.length ∧ e.key = joinPayloads e.tmpl ∧ isSubrangeOf trees e.tmpl

def hasKeyE (st : GState) (k : String) : Prop :=
  ∃ e ∈ st.entries, e.key = k

/-- The state invariant of the enumeration: every entry is sound and the
`groups` and `full_bubbles` keys are duplicate-free. -/
def GInv (trees : List ParseNode) (st : GState) : Prop :=
  (∀ e ∈ st.entries, entryOK trees e) ∧
    (st.entries.map GEntry.key).Nodup ∧ (st.fb.map Prod.fst).Nodup

/-- Example tree for the group witness: `t0 -> a b a b`. -/
def treeABAB : ParseNode :=
  .mk "t0" false [leaf "a", leaf "b", leaf "a", leaf "b"]

end Arvada

/-! ## Claim theorems: oracle wrappers -/

open Arvada

/-- C1: the claim says an oracle probe exceeding the 3-second bound makes the
wrapper report accept.  The code has no timeout path at all: `_parse_internal`
never reads its `timeout` argument, and its bare `except:` maps every raised
engine error — a timeout abort included — to `False`, which `parse` turns
into a `ParseException` (reject).  This theorem evaluates the code at the
failing input: an engine run that exceeds the bound and raises is cached as
`False` and rejected, and the `timeout` argument is inert. -/
theorem C1_timeout_rejected_not_accepted :
    parseInternal 3 .raisedAfterTimeout = false ∧
    (externalParse (fun _ => .raisedAfterTimeout) [] "model").1 = .raiseParse ∧
    (∀ t t' o, parseInternal t o = parseInternal t' o) := by
  refine ⟨rfl, rfl, ?_⟩
  intro t t' o
  cases o <;> rfl

/-- C10: `CachingOracle.parse` signals acceptance only by the absence of an
exception: for an uncached string the wrapped parser accepts, the first call
returns `None` and every later call on the resulting caches returns `True`;
for a string it rejects, the first call and every later call raise
`ParseException`. -/
theorem C10_cachingParse_accept_none_then_true
    (acc : String → Bool) (c : Cache) (s : String)
    (h : c.lookup s = none) :
    (acc s = true →
      (cachingParseNth acc c s 1).1 = .retNone ∧
      ∀ n, 2 ≤ n → (cachingParseNth acc c s n).1 = .retTrue) ∧
    (acc s = false →
      ∀ n, 1 ≤ n → (cachingParseNth acc c s n).1 = .raiseParse) := by
  have hmem : ∀ b, (Cache.lookup (Cache.insert c s b) s) = some b := by
    intro b
    simp [Cache.lookup, Cache.insert, List.find?]
  constructor
  · intro hacc
    have h1 : cachingParseNth acc c s 1 = (.retNone, c.insert s true) := by
      simp [cachingParseNth, cachingParse, h, hacc]
    refine ⟨by rw [h1], ?_⟩
    intro n hn
    induction n with
    | zero => omega
    | succ m ih =>
      match m, ih with
      | 0, _ => omega
      | 1, _ =>
        show (cachingParse acc (cachingParseNth acc c s 1).2 s).1 = .retTrue
        rw [h1]
        simp [cachingParse, hmem]
      | (k+2), ih =>
        have hk : 2 ≤ k + 2 := by omega
        have hcache : (cachingParseNth acc c s (k+2)).2 = (cachingParseNth acc c s (k+2)).2 := rfl
        -- the cache is stable from call 2 on because hits do not modify it
        have stable : ∀ j, 1 ≤ j → (cachingParseNth acc c s j).2 = c.insert s true := by
          intro j hj
          induction j with
          | zero => omega
          | succ i ihj =>
            match i, ihj with
            | 0, _ =>
              show (cachingParseNth acc c s 1).2 = c.insert s true
              rw [h1]
            | (i+1), ihj =>
              have hprev : (cachingParseNth acc c s (i+1)).2 = c.insert s true :=
                ihj (by omega)
              show (cachingParse acc (cachingParseNth acc c s (i+1)).2 s).2 = c.insert s true
              rw [hprev]
              simp [cachingParse, hmem]
        show (cachingParse acc (cachingParseNth acc c s (k+2)).2 s).1 = .retTrue
        rw [stable (k+2) (by omega)]
        simp [cachingParse, hmem]
  · intro hacc
    have h1 : cachingParseNth acc c s 1 = (.raiseParse, c.insert s false) := by
      simp [cachingParseNth, cachingParse, h, hacc]
    have stable : ∀ j, 1 ≤ j → (cachingParseNth acc c s j).2 = c.insert s false := by
      intro j hj
      induction j with
      | zero => omega
      | succ i ihj =>
        match i, ihj with
        | 0, _ =>
          show (cachingParseNth acc c s 1).2 = c.insert s false
          rw [h1]
        | (i+1), ihj =>
          have hprev : (cachingParseNth acc c s (i+1)).2 = c.insert s false :=
            ihj (by omega)
          show (cachingParse acc (cachingParseNth acc c s (i+1)).2 s).2 = c.insert s false
          rw [hprev]
          simp [cachingParse, hmem]
    intro n hn
    match n, hn with
    | 1, _ => rw [h1]
    | (k+2), _ =>
      show (cachingParse acc (cachingParseNth acc c s (k+1)).2 s).1 = .raiseParse
      rw [stable (k+1) (by omega)]
      simp [cachingParse, hmem]

/-- Witness for C10 at a concrete parser, cache and string. -/
theorem C10_witness :
    (Cache.lookup [] "ab" = none) ∧
    ((fun s => s == "ab") "ab" = true →
      (cachingParseNth (fun s => s == "ab") [] "ab" 1).1 = .retNone ∧
      ∀ n, 2 ≤ n → (cachingParseNth (fun s => s == "ab") [] "ab" n).1 = .retTrue) :=
  ⟨rfl, (C10_cachingParse_accept_none_then_true (fun s => s == "ab") [] "ab" rfl).1⟩

/-! ## Helper lemmas: duplicate-body removal -/

theorem keepFirstByJoin_nil : keepFirstByJoin [] = [] := by
  rw [keepFirstByJoin]

theorem keepFirstByJoin_cons (b : List String) (rest : List (List String)) :
    keepFirstByJoin (b :: rest) =
      b :: keepFirstByJoin (rest.filter (fun b' => !(String.join b' == String.join b))) := by
  rw [keepFirstByJoin]

theorem rrbGo_eq_keepFirst (l : List (List String)) :
    ∀ seen, rrbGo seen l =
      keepFirstByJoin (l.filter (fun b => !(decide (String.join b ∈ seen)))) := by
  induction l with
  | nil => intro seen; simp [rrbGo, keepFirstByJoin_nil]
  | cons b rest ih =>
    intro seen
    by_cases h : String.join b ∈ seen
    · rw [rrbGo, if_pos h]
      rw [List.filter_cons, if_neg (by simp [h])]
      exact ih seen
    · rw [rrbGo, if_neg h]
      rw [List.filter_cons, if_pos (by simp [h]), keepFirstByJoin_cons]
      rw [List.filter_filter]
      have hcong :
          rest.filter (fun a => (!(String.join a == String.join b)) && !(decide (String.join a ∈ seen)))
            = rest.filter (fun a => !(decide (String.join a ∈ String.join b :: seen))) := by
        apply List.filter_congr
        intro x _
        by_cases h1 : String.join x = String.join b <;> by_cases h2 : String.join x ∈ seen <;>
          simp [List.mem_cons, h1, h2]
      rw [hcong]
      exact (ih (String.join b :: seen)) ▸ rfl

theorem removeRepeatedBodies_eq_keepFirst (bodies : List (List String)) :
    removeRepeatedBodies bodies = keepFirstByJoin bodies := by
  unfold removeRepeatedBodies
  rw [rrbGo_eq_keepFirst]
  congr 1
  have : ∀ x ∈ bodies, (!(decide (String.join x ∈ ([] : List String)))) = true := by
    intro x _; simp
  rw [List.filter_congr (q := fun _ => true) (by intro x hx; simp), List.filter_true]

theorem keepFirstByJoin_mem : ∀ (n : Nat) (l : List (List String)), l.length ≤ n →
    ∀ x ∈ keepFirstByJoin l, x ∈ l := by
  intro n
  induction n with
  | zero =>
    intro l hl x hx
    match l, hl with
    | [], _ => rw [keepFirstByJoin_nil] at hx; exact absurd hx (List.not_mem_nil x)
  | succ n ih =>
    intro l hl x hx
    match l with
    | [] => rw [keepFirstByJoin_nil] at hx; exact absurd hx (List.not_mem_nil x)
    | b :: rest =>
      rw [keepFirstByJoin_cons] at hx
      rcases List.mem_cons.1 hx with h | h
      · exact h ▸ List.mem_cons_self _ _
      · have hlen : (rest.filter (fun b' => !(String.join b' == String.join b))).length ≤ n :=
          le_trans (List.length_filter_le _ rest)
            (Nat.le_of_succ_le_succ (by simpa using hl))
        exact List.mem_cons_of_mem _ (List.mem_of_mem_filter (ih _ hlen x h))

theorem keepFirstByJoin_pairwise : ∀ (n : Nat) (l : List (List String)), l.length ≤ n →
    (keepFirstByJoin l).Pairwise (fun a b => String.join a ≠ String.join b) := by
  intro n
  induction n with
  | zero =>
    intro l hl
    match l, hl with
    | [], _ => rw [keepFirstByJoin_nil]; exact List.Pairwise.nil
  | succ n ih =>
    intro l hl
    match l with
    | [] => rw [keepFirstByJoin_nil]; exact List.Pairwise.nil
    | b :: rest =>
      rw [keepFirstByJoin_cons]
      have hlen : (rest.filter (fun b' => !(String.join b' == String.join b))).length ≤ n :=
        le_trans (List.length_filter_le _ rest)
          (Nat.le_of_succ_le_succ (by simpa using hl))
      refine List.Pairwise.cons ?_ (ih _ hlen)
      intro y hy
      have hyf := keepFirstByJoin_mem _ _ le_rfl y hy
      have := List.of_mem_filter hyf
      simp only [Bool.not_eq_true', beq_eq_false_iff_ne, ne_eq] at this
      exact fun hbe => this hbe.symm

theorem rrbGo_of_pairwise :
    ∀ (l : List (List String)) (seen : List String),
      l.Pairwise (fun a b => String.join a ≠ String.join b) →
      (∀ b ∈ l, String.join b ∉ seen) → rrbGo seen l = l := by
  intro l
  induction l with
  | nil => intro seen _ _; rfl
  | cons b rest ih =>
    intro seen hp hs
    have hb : String.join b ∉ seen := hs b (List.mem_cons_self _ _)
    rw [rrbGo, if_neg hb]
    congr 1
    rcases List.pairwise_cons.1 hp with ⟨hhd, htl⟩
    refine ih _ htl ?_
    intro y hy
    simp only [List.mem_cons]
    rintro (h | h)
    · exact hhd y hy h.symm
    · exact hs y (List.mem_cons_of_mem _ hy) h

theorem removeRepeatedBodies_pairwise (bodies : List (List String)) :
    (removeRepeatedBodies bodies).Pairwise (fun a b => String.join a ≠ String.join b) := by
  rw [removeRepeatedBodies_eq_keepFirst]
  exact keepFirstByJoin_pairwise _ _ le_rfl

theorem removeRepeatedBodies_idem (bodies : List (List String)) :
    removeRepeatedBodies (removeRepeatedBodies bodies) = removeRepeatedBodies bodies := by
  refine rrbGo_of_pairwise _ _ (removeRepeatedBodies_pairwise bodies) ?_
  intro b _
  exact List.not_mem_nil _

theorem removeRepeatedRules_idem (g : Grammar) :
    removeRepeatedRules (removeRepeatedRules g) = removeRepeatedRules g := by
  unfold removeRepeatedRules
  congr 1
  rw [List.map_map]
  apply List.map_congr_left
  intro r _
  simp [Function.comp, removeRepeatedBodies_idem]

/-! ## Helper lemmas: derive_classes probing -/

theorem probeSeq_all_iff (acc : String → Bool) :
    ∀ l : List String, (probeSeq acc l).1 = true ↔ ∀ s ∈ l, acc s = true := by
  intro l
  induction l with
  | nil => simp [probeSeq]
  | cons s rest ih =>
    by_cases h : acc s = true
    · rw [probeSeq, if_pos h]
      simp only [List.mem_cons]
      constructor
      · intro hall x hx
        rcases hx with hx | hx
        · exact hx ▸ h
        · exact (ih.1 hall) x hx
      · intro hall
        exact ih.2 (fun x hx => hall x (Or.inr hx))
    · rw [probeSeq, if_neg h]
      simp only [List.mem_cons]
      constructor
      · intro hfalse; exact absurd hfalse (by simp)
      · intro hall; exact absurd (hall s (Or.inl rfl)) h

theorem probeSeq_trace_sub (acc : String → Bool) :
    ∀ l : List String, ∀ s ∈ (probeSeq acc l).2, s ∈ l := by
  intro l
  induction l with
  | nil => intro s hs; exact absurd hs (List.not_mem_nil s)
  | cons x rest ih =>
    intro s hs
    by_cases h : acc x = true
    · rw [probeSeq, if_pos h] at hs
      rcases List.mem_cons.1 hs with h1 | h1
      · exact h1 ▸ List.mem_cons_self _ _
      · exact List.mem_cons_of_mem _ (ih s h1)
    · rw [probeSeq, if_neg h] at hs
      rcases List.mem_cons.1 hs with h1 | h1
      · exact h1 ▸ List.mem_cons_self _ _
      · exact absurd h1 (List.not_mem_nil s)

/-- The `replaces('', '')` sanity probe rebuilds exactly the original example
strings: swapping the empty payload for itself changes nothing. -/
theorem dcReplacedExamples_empty (leaves : List (List ParseNode)) :
    dcReplacedExamples leaves "" "" = dcExamples leaves := by
  unfold dcReplacedExamples dcExamples
  apply List.map_congr_left
  intro tr _
  congr 1
  apply List.map_congr_left
  intro l _
  by_cases h : l.payload = ""
  · simp [h]
  · simp [h]

/-! ## Claim theorems: derive_classes, minimize, duplicate bodies -/

/-- C9: `derive_classes` first probes the original example strings through
`replaces('','')`; if any of them is rejected, it aborts with the fatal
guide-examples error (`exit(1)`, modelled as `Except.error`) and the oracle
trace contains nothing but original example strings — in particular no
pairwise terminal-replacement probe was issued. -/
theorem C9_guide_example_failure_aborts (acc : String → Bool)
    (leaves : List (List ParseNode))
    (h : ∃ e ∈ dcExamples leaves, acc e = false) :
    (deriveClassesRun acc leaves).1 = .error () ∧
    ∀ s ∈ (deriveClassesRun acc leaves).2, s ∈ dcExamples leaves := by
  have h0 : (dcReplaces acc leaves "" "").1 = false := by
    unfold dcReplaces
    rw [dcReplacedExamples_empty]
    rcases h with ⟨e, he, hacc⟩
    cases hp : (probeSeq acc (dcExamples leaves)).1 with
    | false => rfl
    | true => exact absurd ((probeSeq_all_iff acc _).1 hp e he) (by simp [hacc])
  constructor
  · simp only [deriveClassesRun, h0, Bool.false_eq_true, if_false]
  · simp only [deriveClassesRun, h0, Bool.false_eq_true, if_false]
    intro s hs
    unfold dcReplaces at hs
    rw [dcReplacedExamples_empty] at hs
    exact probeSeq_trace_sub acc _ s hs

/-- Witness for C9: a one-token example the oracle rejects. -/
theorem C9_witness :
    (∃ e ∈ dcExamples [[leaf "a"]], (fun (_ : String) => false) e = false) ∧
    (deriveClassesRun (fun _ => false) [[leaf "a"]]).1 = .error () := by
  refine ⟨⟨"a", by decide, rfl⟩, ?_⟩
  exact (C9_guide_example_failure_aborts (fun _ => false) [[leaf "a"]]
    ⟨"a", by decide, rfl⟩).1

/-- C4 counterexample: the duplicate-body pass keys bodies by the
concatenation `''.join(body)`, not by the symbol sequence.  The rule bodies
`["ab"]` and `["a","b"]` are distinct as symbol sequences, no earlier body of
the rule is identical to `["a","b"]`, yet the pass removes it. -/
theorem C4_counterexample_join_conflates :
    removeRepeatedBodies [["ab"], ["a", "b"]] = [["ab"]] ∧
    (["a", "b"] : List String) ≠ ["ab"] := by
  constructor
  · decide
  · decide

/-- C4 (amended): the pass keeps a body exactly when no earlier body of the
rule has the same symbol concatenation (`keepFirstByJoin`); afterwards no two
bodies of a rule share a concatenation — in particular, after `minimize` no
rule contains two identical bodies as symbol sequences. -/
theorem C4_join_dedup_characterisation :
    (∀ bodies : List (List String),
        removeRepeatedBodies bodies = keepFirstByJoin bodies ∧
        (removeRepeatedBodies bodies).Pairwise
          (fun a b => String.join a ≠ String.join b)) ∧
    (∀ (g : Grammar), ∀ r ∈ (minimize g).rules, r.bodies.Pairwise (· ≠ ·)) := by
  constructor
  · intro bodies
    exact ⟨removeRepeatedBodies_eq_keepFirst bodies, removeRepeatedBodies_pairwise bodies⟩
  · intro g r hr
    unfold minimize at hr
    unfold removeRepeatedRules at hr
    rcases List.mem_map.1 hr with ⟨r0, _, heq⟩
    have hb : r.bodies = removeRepeatedBodies r0.bodies := by
      rw [← heq]
    rw [hb]
    exact (removeRepeatedBodies_pairwise r0.bodies).imp
      (fun hne heq2 => hne (congrArg String.join heq2))

/-- Witness for C4's amended theorem at a concrete grammar and rule. -/
theorem C4_witness :
    (⟨"t0", [["t1", "b"]]⟩ : Rule) ∈ (minimize gMinCx).rules ∧
    ((⟨"t0", [["t1", "b"]]⟩ : Rule).bodies).Pairwise (· ≠ ·) :=
  ⟨by decide, C4_join_dedup_characterisation.2 gMinCx ⟨"t0", [["t1", "b"]]⟩ (by decide)⟩

/-- C7 counterexample: `minimize` is not idempotent.  On `gMinCx` the first
application inlines the single-use `t2` into `t0` and the final
duplicate-body pass then merges `t0`'s two bodies, dropping `t1`'s use count
to one; the second application therefore inlines `t1` as well and produces a
different grammar. -/
theorem C7_counterexample_not_idempotent :
    minimize (minimize gMinCx) ≠ minimize gMinCx := by
  have h1 : minimize gMinCx =
      ⟨[⟨"start", [["t0"]]⟩, ⟨"t0", [["t1", "b"]]⟩, ⟨"t1", [["x", "y"]]⟩]⟩ := by
    decide
  rw [h1]
  decide

/-- C7 (amended): `minimize` need not be a fixed point of itself, but its
final duplicate-body pass is stable: re-running `remove_repeated_rules` on
`minimize`'s output changes nothing. -/
theorem C7_final_pass_stable (g : Grammar) :
    removeRepeatedRules (minimize g) = minimize g := by
  unfold minimize
  exact removeRepeatedRules_idem _

/-! ## Helper lemmas: the coalescing pair loop -/

theorem coalesceLoop_trace_src (acc : String → Bool) (trees : List ParseNode) :
    ∀ (pairs : List (String × String)) (st : UnionFind × Bool × List (String × String))
      (p : String × String),
      p ∈ (pairs.foldl (coalesceLoopStep acc trees) st).2.2 →
      p ∈ st.2.2 ∨
        (coReplaces acc trees p.1 p.2 = true ∧ coReplaces acc trees p.2 p.1 = true) := by
  intro pairs
  induction pairs with
  | nil => intro st p hp; exact Or.inl hp
  | cons q rest ih =>
    intro st p hp
    rcases ih (coalesceLoopStep acc trees st q) p hp with h | h
    · by_cases hc : (!(st.1.isConnected q.1 q.2) && coReplaces acc trees q.1 q.2 &&
          coReplaces acc trees q.2 q.1) = true
      · rw [coalesceLoopStep, if_pos hc] at h
        rcases List.mem_append.1 h with h1 | h1
        · exact Or.inl h1
        · have hpq : p = q := by simpa using h1
          rcases Bool.and_eq_true_iff.1 hc with ⟨hc1, hc3⟩
          rcases Bool.and_eq_true_iff.1 hc1 with ⟨_, hc2⟩
          exact Or.inr ⟨hpq ▸ hc2, hpq ▸ hc3⟩
      · rw [coalesceLoopStep, if_neg hc] at h
        exact Or.inl h
    · exact Or.inr h

theorem coalesceLoop_caused_mono (acc : String → Bool) (trees : List ParseNode) :
    ∀ (pairs : List (String × String)) (st : UnionFind × Bool × List (String × String)),
      st.2.1 = true → (pairs.foldl (coalesceLoopStep acc trees) st).2.1 = true := by
  intro pairs
  induction pairs with
  | nil => intro st h; exact h
  | cons q rest ih =>
    intro st h
    refine ih (coalesceLoopStep acc trees st q) ?_
    by_cases hc : (!(st.1.isConnected q.1 q.2) && coReplaces acc trees q.1 q.2 &&
        coReplaces acc trees q.2 q.1) = true
    · rw [coalesceLoopStep, if_pos hc]
    · rw [coalesceLoopStep, if_neg hc]; exact h

theorem coalesceLoop_no_change (acc : String → Bool) (trees : List ParseNode) :
    ∀ (pairs : List (String × String)) (st : UnionFind × Bool × List (String × String)),
      (pairs.foldl (coalesceLoopStep acc trees) st).2.1 = false →
      pairs.foldl (coalesceLoopStep acc trees) st = st := by
  intro pairs
  induction pairs with
  | nil => intro st _; rfl
  | cons q rest ih =>
    intro st h
    by_cases hc : (!(st.1.isConnected q.1 q.2) && coReplaces acc trees q.1 q.2 &&
        coReplaces acc trees q.2 q.1) = true
    · exfalso
      have hstep : (coalesceLoopStep acc trees st q).2.1 = true := by
        rw [coalesceLoopStep, if_pos hc]
      have := coalesceLoop_caused_mono acc trees rest _ hstep
      rw [List.foldl_cons] at h
      rw [this] at h
      exact Bool.true_eq_false.mp h
    · have hstep : coalesceLoopStep acc trees st q = st := by
        rw [coalesceLoopStep, if_neg hc]
      rw [List.foldl_cons, hstep]
      rw [List.foldl_cons, hstep] at h
      exact ih st h

theorem classesGo_small :
    ∀ (cl : List (String × List String)) (tid : Nat),
      (∀ c ∈ cl, c.2.length ≤ 1) → coalesceClassesGo cl tid = ([], tid) := by
  intro cl
  induction cl with
  | nil => intro tid _; rfl
  | cons c rest ih =>
    intro tid h
    obtain ⟨ld, nts⟩ := c
    rw [coalesceClassesGo]
    have hle : nts.length ≤ 1 := h (ld, nts) (List.mem_cons_self _ _)
    rw [if_neg (by omega)]
    exact ih tid (fun c hc => h c (List.mem_cons_of_mem _ hc))

theorem classesGo_of_singletons (xs : List String) (tid : Nat) :
    coalesceClassesGo ((UnionFind.ofList xs).classesOf) tid = ([], tid) := by
  apply classesGo_small
  intro c hc
  unfold UnionFind.ofList UnionFind.classesOf at hc
  simp only [List.map_map, List.mem_map, Function.comp] at hc
  obtain ⟨x, _, hx⟩ := hc
  rw [← hx]
  exact le_refl 1

theorem getClassFn_nil (s : String) : getClassFn [] s = s := rfl

theorem rewriteGrammar_id (g : Grammar) : rewriteGrammar g (getClassFn []) = g := by
  unfold rewriteGrammar
  have hsym : ∀ s : String, rewriteBodySym g.keys (getClassFn []) s = s := by
    intro s
    unfold rewriteBodySym
    rw [getClassFn_nil]
    exact ite_self s
  have hb : ∀ b : List String, b.map (rewriteBodySym g.keys (getClassFn [])) = b := by
    intro b
    calc b.map (rewriteBodySym g.keys (getClassFn []))
        = b.map id := List.map_congr_left (fun s _ => hsym s)
      _ = b := List.map_id b
  have hr : ∀ r : Rule, (if r.start == "start" then r
      else ⟨r.start, r.bodies.map (fun b => b.map (rewriteBodySym g.keys (getClassFn [])))⟩ : Rule) = r := by
    intro r
    by_cases h : r.start == "start"
    · rw [if_pos h]
    · rw [if_neg h]
      have hbodies : r.bodies.map (fun b => b.map (rewriteBodySym g.keys (getClassFn [])))
          = r.bodies := by
        calc r.bodies.map (fun b => b.map (rewriteBodySym g.keys (getClassFn [])))
            = r.bodies.map id := List.map_congr_left (fun b _ => hb b)
          _ = r.bodies := List.map_id _
      rw [hbodies]
  cases g with
  | mk rules =>
    simp only
    congr 1
    calc rules.map (fun r => if r.start == "start" then r
          else ⟨r.start, r.bodies.map (fun b =>
            b.map (rewriteBodySym (Grammar.mk rules).keys (getClassFn [])))⟩)
        = rules.map id := List.map_congr_left (fun r _ => hr r)
      _ = rules := List.map_id rules

theorem coalesceLoop_eq_init (acc : String → Bool) (trees : List ParseNode)
    (pairs : List (String × String)) (uf0 : UnionFind)
    (h : (coalesceLoop acc trees pairs uf0).2.1 = false) :
    coalesceLoop acc trees pairs uf0 = (uf0, false, []) :=
  coalesceLoop_no_change acc trees pairs (uf0, false, []) h

theorem coalesce_caused_false_id (acc : String → Bool) (trees : List ParseNode)
    (g : Grammar) (tgt : Option String) (tid : Nat)
    (h : (coalesce acc trees g tgt tid).2.2.1 = false) :
    coalesce acc trees g tgt tid = (g, trees, false, tid) := by
  have hl : (coalesceLoop acc trees (coalescePairs (nonStartKeys g) tgt)
      (UnionFind.ofList (nonStartKeys g))).2.1 = false := h
  have hloop := coalesceLoop_eq_init acc trees (coalescePairs (nonStartKeys g) tgt)
    (UnionFind.ofList (nonStartKeys g)) hl
  simp only [coalesce, coalesceClassesOf]
  rw [hloop]
  rw [classesGo_of_singletons]
  simp only [Bool.false_eq_true, if_false]
  rw [rewriteGrammar_id]
  rfl

/-! ## Claim theorems: coalesce -/

/-- C2 counterexample: the claim says a considered pair `(a, b)` ends in the
same union-find class exactly when both directions of replacement succeed.
Under `accC2` the pair `(ta, tb)` is considered and fails its own test — the
probe `BBC` for the direction "replace every `ta` by a string of `tb`" is
rejected — yet `ta` and `tb` end in the same class, unioned transitively
through `tc`. -/
theorem C2_counterexample_transitive_class :
    ((coalesceLoop accC2 [treeABC] (coalescePairs (nonStartKeys gABC) none)
        (UnionFind.ofList (nonStartKeys gABC))).1.isConnected "ta" "tb" = true) ∧
    coReplaces accC2 [treeABC] "tb" "ta" = false := by
  constructor
  · decide
  · decide

/-- C2 (amended): what the pair loop guarantees is about direct unions:
`uf.connect` is invoked on a pair only when both directions of replacement
succeed (and the pair was not already connected); a pair with a rejected
probe in either direction is never directly unioned, though it may still end
in the same class through transitive unions with third nonterminals. -/
theorem C2_direct_union_needs_both_directions (acc : String → Bool)
    (trees : List ParseNode) (pairs : List (String × String)) (uf0 : UnionFind)
    (p : String × String)
    (hp : p ∈ (coalesceLoop acc trees pairs uf0).2.2) :
    coReplaces acc trees p.1 p.2 = true ∧ coReplaces acc trees p.2 p.1 = true := by
  rcases coalesceLoop_trace_src acc trees pairs (uf0, false, []) p hp with h | h
  · exact absurd h (List.not_mem_nil p)
  · exact h

/-- Witness for C2's amended theorem: the pair `(ta, tc)` is directly unioned
in the `accC2` run, so both its replacement directions succeeded. -/
theorem C2_witness :
    (("ta", "tc") ∈ (coalesceLoop accC2 [treeABC]
        (coalescePairs (nonStartKeys gABC) none)
        (UnionFind.ofList (nonStartKeys gABC))).2.2) ∧
    coReplaces accC2 [treeABC] "ta" "tc" = true ∧
    coReplaces accC2 [treeABC] "tc" "ta" = true :=
  ⟨by decide,
   C2_direct_union_needs_both_directions accC2 [treeABC]
     (coalescePairs (nonStartKeys gABC) none)
     (UnionFind.ofList (nonStartKeys gABC)) ("ta", "tc") (by decide)⟩

/-- C8 counterexample: a second run of `coalesce`, immediately after a first
run on the same oracle, grammar and trees, is not a no-op.  The first run
merges `ta` and `tc` into `t5`; the second run's probe for `(tb, t5)`
substitutes at the former `ta` and `tc` positions simultaneously — the
string `BBB`, which the first run never sent — and `accC8` accepts it, so
the second run coalesces again (and changes grammar and trees). -/
theorem C8_counterexample_second_run_coalesces :
    ((coalesce accC8 [treeABC] gABC none 5).2.2.1 = true) ∧
    ((coalesce accC8 ((coalesce accC8 [treeABC] gABC none 5).2.1)
        ((coalesce accC8 [treeABC] gABC none 5).1) none
        ((coalesce accC8 [treeABC] gABC none 5).2.2.2)).2.2.1 = true) := by
  have h1 : coalesce accC8 [treeABC] gABC none 5 =
      (⟨[⟨"start", [["t0"]]⟩, ⟨"t0", [["t5", "tb", "t5"]]⟩, ⟨"tb", [["B"]]⟩,
          ⟨"t5", [["A"], ["C"]]⟩]⟩,
       [.mk "t0" false [.mk "t5" false [leaf "A"], .mk "tb" false [leaf "B"],
          .mk "t5" false [leaf "C"]]],
       true, 6) := by
    decide
  rw [h1]
  constructor
  · rfl
  · decide

/-- C8 (amended): a second `coalesce` run performs no changes provided the
first run itself coalesced nothing: a run reporting `coalesce_caused = False`
returns the grammar, trees and counter unchanged, so re-running it reproduces
the same no-change result.  (The counterexample shows the unconditional claim
fails after a run that did coalesce.) -/
theorem C8_second_run_after_no_change (acc : String → Bool) (trees : List ParseNode)
    (g : Grammar) (tgt : Option String) (tid : Nat)
    (h : (coalesce acc trees g tgt tid).2.2.1 = false) :
    coalesce acc trees g tgt tid = (g, trees, false, tid) ∧
    coalesce acc ((coalesce acc trees g tgt tid).2.1)
        ((coalesce acc trees g tgt tid).1) tgt
        ((coalesce acc trees g tgt tid).2.2.2) =
      coalesce acc trees g tgt tid := by
  have h1 := coalesce_caused_false_id acc trees g tgt tid h
  refine ⟨h1, ?_⟩
  rw [h1]
  exact h1

/-- Witness for C8's amended theorem: under an all-rejecting oracle no pair
coalesces, and the second run is the first. -/
theorem C8_witness :
    ((coalesce (fun _ => false) [treeABC] gABC none 5).2.2.1 = false) ∧
    coalesce (fun _ => false) [treeABC] gABC none 5 = (gABC, [treeABC], false, 5) :=
  ⟨by decide,
   (C8_second_run_after_no_change (fun _ => false) [treeABC] gABC none 5 (by decide)).1⟩

/-! ## Helper lemmas: coalesce grammar update preserves absence of
self-unit bodies -/

theorem contains_iff_mem (l : List String) (a : String) :
    l.contains a = true ↔ a ∈ l := List.elem_iff

theorem getClassFn_cases (classes : List (String × List String)) (s : String) :
    getClassFn classes s = s ∨
      ∃ c ∈ classes, s ∈ c.2 ∧ getClassFn classes s = c.1 := by
  unfold getClassFn
  cases hfind : ((classes.map (fun c => c.2.map (fun m => (m, c.1)))).flatten).find?
      (fun kv => kv.1 == s) with
  | none => exact Or.inl rfl
  | some kv =>
    right
    have hp : (kv.1 == s) = true :=
      List.find?_some (p := fun kv : String × String => kv.1 == s) hfind
    have hks : kv.1 = s := by simpa using hp
    have hmem := List.mem_of_find?_eq_some hfind
    rcases List.mem_flatten.1 hmem with ⟨l, hl, hkvl⟩
    rcases List.mem_map.1 hl with ⟨c, hc, hcl⟩
    rw [← hcl] at hkvl
    rcases List.mem_map.1 hkvl with ⟨m, hm, hmkv⟩
    refine ⟨c, hc, ?_, ?_⟩
    · have : m = s := by rw [← hks, ← hmkv]
      exact this ▸ hm
    · rw [← hmkv]

theorem keys_rewriteGrammar (g : Grammar) (getC : String → String) :
    (rewriteGrammar g getC).keys = g.keys := by
  unfold rewriteGrammar Grammar.keys
  simp only [List.map_map]
  apply List.map_congr_left
  intro r _
  by_cases h : r.start == "start"
  · simp [Function.comp, h]
  · simp [Function.comp, h]

theorem start_mem_keys (g : Grammar) (r : Rule) (hr : r ∈ g.rules) :
    r.start ∈ g.keys :=
  List.mem_map.2 ⟨r, hr, rfl⟩

theorem map_eq_singleton (f : String → String) (b : List String) (y : String)
    (h : b.map f = [y]) : ∃ z, b = [z] ∧ f z = y := by
  match b with
  | [] => simp at h
  | [z] =>
    simp only [List.map_cons, List.map_nil, List.cons.injEq, and_true] at h
    exact ⟨z, rfl, h⟩
  | z1 :: z2 :: rest => simp at h

/-- After the body rewrite of `coalesce`, a rule whose LHS is not a class
member has no self-unit body (given the input grammar had none and each
class nonterminal is either a member of its own class or foreign to the
grammar's keys). -/
theorem rewrite_no_self_unit (g : Grammar) (classes : List (String × List String))
    (h1 : ∀ r ∈ g.rules, [r.start] ∉ r.bodies)
    (h3 : ∀ c ∈ classes, c.1 ∈ c.2 ∨ c.1 ∉ g.keys) :
    ∀ r ∈ (rewriteGrammar g (getClassFn classes)).rules,
      r.start ∉ (classes.map Prod.snd).flatten → [r.start] ∉ r.bodies := by
  intro r hr hni hmem
  unfold rewriteGrammar at hr
  rcases List.mem_map.1 hr with ⟨r0, hr0, hbr⟩
  by_cases hs : r0.start == "start"
  · rw [if_pos hs] at hbr
    subst hbr
    exact h1 r0 hr0 hmem
  · rw [if_neg hs] at hbr
    have hstart : r.start = r0.start := by rw [← hbr]
    have hbodies : r.bodies = r0.bodies.map
        (fun b => b.map (rewriteBodySym g.keys (getClassFn classes))) := by
      rw [← hbr]
    rw [hbodies, hstart] at hmem
    rcases List.mem_map.1 hmem with ⟨b0, hb0, hb0eq⟩
    rcases map_eq_singleton _ _ _ hb0eq with ⟨y, hby, hfy⟩
    unfold rewriteBodySym at hfy
    by_cases hcont : g.keys.contains y = true
    · rw [if_pos hcont] at hfy
      rcases getClassFn_cases classes y with hid | ⟨c, hc, hyc, hyc2⟩
      · rw [hid] at hfy
        exact h1 r0 hr0 (hfy ▸ hby ▸ hb0)
      · rw [hyc2] at hfy
        rcases h3 c hc with hin | hnk
        · apply hni
          rw [hstart, ← hfy]
          exact List.mem_flatten.2 ⟨c.2, List.mem_map.2 ⟨c, hc, rfl⟩, hin⟩
        · exact hnk (hfy ▸ start_mem_keys g r0 hr0)
    · rw [if_neg hcont] at hfy
      apply hcont
      rw [contains_iff_mem, hfy]
      exact start_mem_keys g r0 hr0

theorem hasKey_iff (g : Grammar) (k : String) : g.hasKey k = true ↔ k ∈ g.keys := by
  unfold Grammar.hasKey
  exact contains_iff_mem _ _

theorem popCollectStep_grammar (cn : String) (st : Grammar × List (List String))
    (nt : String) : (popCollectStep cn st nt).1 = st.1.popRule nt := by
  unfold popCollectStep
  cases st.1.lookup nt <;> rfl

theorem popCollect_grammar (cn : String) :
    ∀ (nts : List String) (st : Grammar × List (List String)),
      (nts.foldl (popCollectStep cn) st).1 =
        ⟨st.1.rules.filter (fun r => !(nts.contains r.start))⟩ := by
  intro nts
  induction nts with
  | nil =>
    intro st
    rw [List.foldl_nil]
    have h : st.1.rules.filter (fun r => !(List.contains [] r.start)) = st.1.rules :=
      List.filter_eq_self.2 (fun r _ => rfl)
    rw [h]
  | cons nt nts' ih =>
    intro st
    rw [List.foldl_cons, ih (popCollectStep cn st nt), popCollectStep_grammar]
    unfold Grammar.popRule
    congr 1
    show (st.1.rules.filter (fun r => !(r.start == nt))).filter
        (fun r => !(nts'.contains r.start)) = _
    rw [List.filter_filter]
    apply List.filter_congr
    intro r _
    rw [List.contains_cons]
    cases h1 : r.start == nt <;> cases h2 : nts'.contains r.start <;> simp [h1, h2]

theorem popCollect_bodies (cn : String) :
    ∀ (nts : List String) (st : Grammar × List (List String)),
      (∀ b ∈ st.2, b ≠ [cn]) →
      ∀ b ∈ (nts.foldl (popCollectStep cn) st).2, b ≠ [cn] := by
  intro nts
  induction nts with
  | nil => intro st h; exact h
  | cons nt nts' ih =>
    intro st h
    rw [List.foldl_cons]
    refine ih (popCollectStep cn st nt) ?_
    intro b hb
    unfold popCollectStep at hb
    cases hl : st.1.lookup nt with
    | none => rw [hl] at hb; exact h b hb
    | some r =>
      rw [hl] at hb
      rcases List.mem_append.1 hb with hb1 | hb1
      · exact h b hb1
      · have := List.of_mem_filter hb1
        simpa using this

theorem mergeClassInto_rules (g : Grammar) (cn : String) (nts : List String)
    (hcn : cn ∉ ((nts.foldl (popCollectStep cn) (g, [])).1).keys) :
    (mergeClassInto g cn nts).rules =
      ((nts.foldl (popCollectStep cn) (g, [])).1).rules ++
        [⟨cn, (nts.foldl (popCollectStep cn) (g, [])).2⟩] := by
  unfold mergeClassInto Grammar.addRule
  rw [if_neg (fun hk => hcn ((hasKey_iff _ _).1 hk))]

theorem mergeClasses_cons (g : Grammar) (c : String × List String)
    (rest : List (String × List String)) :
    mergeClasses g (c :: rest) = mergeClasses (mergeClassInto g c.1 c.2) rest := rfl

/-- The class-merging fold never produces a rule with a self-unit body,
provided: the incoming rules have none outside the still-pending class
members, the keys are distinct, each pending class nonterminal is a member
of its own class or foreign to the current keys, and the pending class
nonterminals are distinct. -/
theorem mergeClasses_no_self_unit :
    ∀ (suffix : List (String × List String)) (g' : Grammar),
      (∀ r ∈ g'.rules, r.start ∉ (suffix.map Prod.snd).flatten → [r.start] ∉ r.bodies) →
      g'.keys.Nodup →
      (∀ c ∈ suffix, c.1 ∈ c.2 ∨ c.1 ∉ g'.keys) →
      (suffix.map Prod.fst).Nodup →
      ∀ r ∈ (mergeClasses g' suffix).rules, [r.start] ∉ r.bodies := by
  intro suffix
  induction suffix with
  | nil =>
    intro g' hQ1 _ _ _ r hr
    exact hQ1 r hr (List.not_mem_nil _)
  | cons c rest ih =>
    intro g' hQ1 hQ2 hQ3 hQ4
    obtain ⟨cn, nts⟩ := c
    have hpg1 : ((nts.foldl (popCollectStep cn) (g', [])).1) =
        ⟨g'.rules.filter (fun r => !(nts.contains r.start))⟩ :=
      popCollect_grammar cn nts (g', [])
    have hkeyssub :
        List.Sublist ((nts.foldl (popCollectStep cn) (g', [])).1).keys g'.keys := by
      rw [hpg1]
      exact (List.filter_sublist _).map Rule.start
    have hcnpg : cn ∉ ((nts.foldl (popCollectStep cn) (g', [])).1).keys := by
      rcases hQ3 (cn, nts) (List.mem_cons_self _ _) with hin | hnk
      · rw [hpg1]
        intro hmem
        rcases List.mem_map.1 hmem with ⟨r, hrf, hrs⟩
        have hflt := List.of_mem_filter hrf
        rw [hrs] at hflt
        rw [Bool.not_eq_eq_eq_not, Bool.not_true] at hflt
        have hct : nts.contains cn = true := (contains_iff_mem nts cn).2 hin
        rw [hflt] at hct
        exact Bool.false_ne_true hct
      · exact fun hmem => hnk (hkeyssub.subset hmem)
    have hmerge := mergeClassInto_rules g' cn nts hcnpg
    have hkeysmerge : (mergeClassInto g' cn nts).keys =
        ((nts.foldl (popCollectStep cn) (g', [])).1).keys ++ [cn] := by
      unfold Grammar.keys
      rw [hmerge, List.map_append]
      rfl
    rw [mergeClasses_cons]
    apply ih (mergeClassInto g' cn nts)
    · -- pending-members invariant
      intro r hr hni
      rw [hmerge] at hr
      rcases List.mem_append.1 hr with hr1 | hr1
      · rw [hpg1] at hr1
        have hrin : r ∈ g'.rules := List.mem_of_mem_filter hr1
        have hnonts := List.of_mem_filter hr1
        apply hQ1 r hrin
        intro habs
        rw [List.map_cons, List.flatten_cons] at habs
        rcases List.mem_append.1 habs with h | h
        · rw [Bool.not_eq_eq_eq_not, Bool.not_true] at hnonts
          have hct : nts.contains r.start = true := (contains_iff_mem nts r.start).2 h
          rw [hnonts] at hct
          exact Bool.false_ne_true hct
        · exact hni h
      · have hreq : r = ⟨cn, (nts.foldl (popCollectStep cn) (g', [])).2⟩ := by
          simpa using hr1
        subst hreq
        intro hmem
        exact (popCollect_bodies cn nts (g', [])
          (fun b hb => absurd hb (List.not_mem_nil b)) _ hmem) rfl
    · -- keys Nodup
      rw [hkeysmerge]
      refine List.Nodup.append (hkeyssub.nodup hQ2) (List.nodup_singleton cn) ?_
      intro a ha hacn
      have : a = cn := by simpa using hacn
      exact hcnpg (this ▸ ha)
    · -- freshness of remaining class nonterminals
      intro c hc
      rcases hQ3 c (List.mem_cons_of_mem _ hc) with h | h
      · exact Or.inl h
      · right
        intro hk
        rw [hkeysmerge] at hk
        rcases List.mem_append.1 hk with hk1 | hk1
        · exact h (hkeyssub.subset hk1)
        · have hccn : c.1 = cn := by simpa using hk1
          have hnodup := List.nodup_cons.1 hQ4
          exact hnodup.1 (hccn ▸ List.mem_map.2 ⟨c, hc, rfl⟩)
    · exact (List.nodup_cons.1 hQ4).2

/-- C3 (amended, the full-coalesce half): `coalesce` preserves the no-self-unit
invariant.  If the input grammar has no rule with a body equal to its own
LHS, the rule keys are distinct, and the class nonterminals of the run are
fresh (each is a member of its own class — the START case — or not a key of
the input grammar — the freshly allocated case, with distinct names), then
no rule of the output grammar has a body equal to its own LHS. -/
theorem C3_coalesce_no_self_unit (acc : String → Bool) (trees : List ParseNode)
    (g : Grammar) (tgt : Option String) (tid : Nat)
    (h1 : ∀ r ∈ g.rules, [r.start] ∉ r.bodies)
    (h2 : g.keys.Nodup)
    (h3 : ∀ c ∈ (coalesceClassesOf acc trees g tgt tid).1, c.1 ∈ c.2 ∨ c.1 ∉ g.keys)
    (h4 : (((coalesceClassesOf acc trees g tgt tid).1).map Prod.fst).Nodup) :
    ∀ r ∈ (coalesce acc trees g tgt tid).1.rules, [r.start] ∉ r.bodies := by
  intro r hr
  have hkeys := keys_rewriteGrammar g
    (getClassFn (coalesceClassesOf acc trees g tgt tid).1)
  have hr2 : r ∈ (mergeClasses
      (rewriteGrammar g (getClassFn (coalesceClassesOf acc trees g tgt tid).1))
      (coalesceClassesOf acc trees g tgt tid).1).rules := hr
  refine mergeClasses_no_self_unit (coalesceClassesOf acc trees g tgt tid).1
    (rewriteGrammar g (getClassFn (coalesceClassesOf acc trees g tgt tid).1))
    (rewrite_no_self_unit g (coalesceClassesOf acc trees g tgt tid).1 h1 h3)
    (by rw [hkeys]; exact h2)
    (fun c hc => (h3 c hc).imp id (fun hn hk => hn (by rw [hkeys] at hk; exact hk)))
    h4 r hr2

/-- Witness for C3's amended theorem: the `accC8` run merges `ta, tc` into the
fresh `t5`, and the merged rule indeed has no self-unit body. -/
theorem C3_witness :
    ((∀ r ∈ gABC.rules, [r.start] ∉ r.bodies) ∧
      gABC.keys.Nodup ∧
      (∀ c ∈ (coalesceClassesOf accC8 [treeABC] gABC none 5).1, c.1 ∈ c.2 ∨ c.1 ∉ gABC.keys) ∧
      (((coalesceClassesOf accC8 [treeABC] gABC none 5).1).map Prod.fst).Nodup) ∧
    ((⟨"t5", [["A"], ["C"]]⟩ : Rule) ∈ (coalesce accC8 [treeABC] gABC none 5).1.rules ∧
      (["t5"] : List String) ∉ (⟨"t5", [["A"], ["C"]]⟩ : Rule).bodies) := by
  refine ⟨⟨by decide, by decide, by decide, by decide⟩, by decide, ?_⟩
  exact C3_coalesce_no_self_unit accC8 [treeABC] gABC none 5
    (by decide) (by decide) (by decide) (by decide)
    ⟨"t5", [["A"], ["C"]]⟩ (by decide)

/-! ## Claim theorems: coalesce_partial invariant and candidate sets -/

/-- C3 counterexample: unlike `coalesce`, `coalesce_partial` does not prune
self-referential unit bodies.  On `gPQ` with the oracle accepting only `pq`,
`tF` is fully replaceable by `tP` and the position `((tF, [tP]), 0)` is
collected; `update_grammar` rewrites that body to `[t6]`, and the merged rule
`t6 -> [t6] | [p]` — a body equal to its own LHS — is added to the grammar.
So after this coalescing stage the claimed invariant fails. -/
theorem C3_counterexample_self_unit_after_coalescePart :
    Grammar.lookup (coalescePart accPQ [treePQ] gPQ none 6).1 "t6" =
      some ⟨"t6", [["t6"], ["p"]]⟩ ∧
    (["t6"] : List String) ∈ (⟨"t6", [["t6"], ["p"]]⟩ : Rule).bodies := by
  constructor
  · decide
  · decide

theorem isSingleTerminalRule_iff (g : Grammar) (nt : String) :
    isSingleTerminalRule g nt = true ↔
      ∃ s, (g.lookup nt).map Rule.bodies = some [[s]] ∧ s ∉ nonStartKeys g := by
  unfold isSingleTerminalRule
  cases hl : g.lookup nt with
  | none => simp
  | some r =>
    cases hb : r.bodies with
    | nil => simp [hb]
    | cons b bs =>
      cases bs with
      | cons b2 bs2 => simp [hb]
      | nil =>
        cases b with
        | nil => simp [hb]
        | cons s srest =>
          cases srest with
          | cons s2 srest2 => simp [hb]
          | nil =>
            simp only [hb, Option.map_some', Option.some.injEq]
            rw [Bool.not_eq_true']
            constructor
            · intro h
              refine ⟨s, rfl, ?_⟩
              intro hmem
              have hc := (contains_iff_mem (nonStartKeys g) s).2 hmem
              rw [h] at hc
              exact Bool.false_ne_true hc
            · rintro ⟨s', hs', hnm⟩
              have hss : s = s' := by simpa using hs'
              cases hc : (nonStartKeys g).contains s with
              | false => rfl
              | true =>
                exact absurd ((contains_iff_mem _ _).1 hc) (hss ▸ hnm)

/-- C6 counterexample: the source's `fully_replaceable` candidate set on a
concrete grammar is `nonterminals = keys - {"start"}`, which still contains
START = `t0` (the code even special-cases `F == START` at start.py line 601);
it differs from the claim's "all non-START nonterminals". -/
theorem C6_counterexample_START_in_candidates :
    fullyReplaceableOf gPQ none ≠ specNonStartNts gPQ ∧
    START ∈ fullyReplaceableOf gPQ none ∧
    START ∉ specNonStartNts gPQ := by
  refine ⟨by decide, by decide, by decide⟩

/-- C6 (amended): the candidate sets of `coalesce_partial` are: P = the rule
keys other than the auxiliary `start` entry (START = t0 included) whose rule
has exactly one body of length 1 whose symbol is not among those keys; and
F = all rule keys other than `start` (START included), or only the bubble
target's nonterminal when a coalesce target is supplied. -/
theorem C6_candidate_sets (g : Grammar) (nt : String) :
    (nt ∈ partReplaceableOf g ↔ nt ∈ nonStartKeys g ∧
      ∃ s, (g.lookup nt).map Rule.bodies = some [[s]] ∧ s ∉ nonStartKeys g) ∧
    fullyReplaceableOf g none = nonStartKeys g ∧
    (∀ t, fullyReplaceableOf g (some t) = [t]) := by
  refine ⟨?_, rfl, fun t => rfl⟩
  unfold partReplaceableOf
  rw [List.mem_filter]
  exact and_congr_right (fun _ => isSingleTerminalRule_iff g nt)

/-- Witness for C6's amended characterisation at `gPQ`. -/
theorem C6_witness :
    ("tP" ∈ partReplaceableOf gPQ ↔ "tP" ∈ nonStartKeys gPQ ∧
      ∃ s, (gPQ.lookup "tP").map Rule.bodies = some [[s]] ∧ s ∉ nonStartKeys gPQ) ∧
    "tP" ∈ partReplaceableOf gPQ :=
  ⟨(C6_candidate_sets gPQ "tP").1,
   ((C6_candidate_sets gPQ "tP").1).2 ⟨by decide, "p", by decide, by decide⟩⟩

/-! ## Helper lemmas: the grouping enumeration -/

theorem subrangesWithFull_mem (cs : List ParseNode) (sub : List ParseNode) (f : Bool)
    (h : (sub, f) ∈ subrangesWithFull cs) :
    ∃ i L, 2 ≤ L ∧ i + L ≤ cs.length ∧ sub = (cs.drop i).take L := by
  unfold subrangesWithFull at h
  rcases List.mem_flatten.1 h with ⟨l, hl, hsl⟩
  rcases List.mem_map.1 hl with ⟨i, hi, hleq⟩
  rw [← hleq] at hsl
  rcases List.mem_map.1 hsl with ⟨L, hL, hLeq⟩
  have hi2 : i < cs.length := List.mem_range.1 hi
  have hL2 := List.mem_range'_1.1 hL
  refine ⟨i, L, hL2.1, by omega, ?_⟩
  have := congrArg Prod.fst hLeq
  simpa using this.symm

theorem subrangesWithFull_mem_of (cs : List ParseNode) (i L : Nat)
    (h2 : 2 ≤ L) (hle : i + L ≤ cs.length) :
    ((cs.drop i).take L, i == 0 && L == cs.length) ∈ subrangesWithFull cs := by
  unfold subrangesWithFull
  apply List.mem_flatten.2
  refine ⟨_, List.mem_map.2 ⟨i, List.mem_range.2 (by omega), rfl⟩, ?_⟩
  exact List.mem_map.2 ⟨L, List.mem_range'_1.2 ⟨h2, by omega⟩, rfl⟩

theorem take_drop_length (cs : List ParseNode) (i L : Nat) (hle : i + L ≤ cs.length) :
    ((cs.drop i).take L).length = L := by
  rw [List.length_take, List.length_drop]
  omega

theorem gsAdd_inv (trees : List ParseNode) (st : GState) (sub : List ParseNode) (f : Bool)
    (hst : GInv trees st) (hlen : 2 ≤ sub.length) (hsub : isSubrangeOf trees sub) :
    GInv trees (gsAdd st sub f) := by
  obtain ⟨hok, hnd, hfbnd⟩ := hst
  have hfb1 : ∀ b : Bool, (((if b then fbBump st.fb (joinPayloads sub) else st.fb)).map
      Prod.fst).Nodup := by
    intro b
    cases b
    · exact hfbnd
    · simp only [if_pos]
      unfold fbBump
      by_cases hf : ((st.fb.find? (fun kv => kv.1 == joinPayloads sub)).isSome) = true
      · rw [if_pos hf]
        have : (st.fb.map (fun kv => if kv.1 == joinPayloads sub then (kv.1, kv.2 + 1) else kv)).map
            Prod.fst = st.fb.map Prod.fst := by
          rw [List.map_map]
          apply List.map_congr_left
          intro kv _
          by_cases hk : kv.1 == joinPayloads sub <;> simp [Function.comp, hk]
        rw [this]
        exact hfbnd
      · rw [if_neg hf]
        rw [List.map_append]
        refine List.Nodup.append hfbnd (List.nodup_singleton _) ?_
        intro a ha hb
        have hak : a = joinPayloads sub := by simpa using hb
        rcases List.mem_map.1 ha with ⟨kv, hkv, hkva⟩
        have hf2 := Option.not_isSome_iff_eq_none.1 hf
        rw [List.find?_eq_none] at hf2
        exact hf2 kv hkv (by rw [hkva, hak]; exact beq_self_eq_true _)
  unfold gsAdd
  by_cases hfind : ((st.entries.find? (fun e => e.key == joinPayloads sub)).isSome) = true
  · rw [if_pos hfind]
    refine ⟨?_, ?_, hfb1 f⟩
    · intro e he
      rcases List.mem_map.1 he with ⟨e0, he0, heq⟩
      have hok0 := hok e0 he0
      by_cases hk : e0.key == joinPayloads sub
      · rw [if_pos hk] at heq
        rw [← heq]
        exact hok0
      · rw [if_neg hk] at heq
        rw [← heq]
        exact hok0
    · have : (st.entries.map (fun e => if e.key == joinPayloads sub
          then (⟨e.key, e.tmpl, e.tid, e.count + 1⟩ : GEntry) else e)).map GEntry.key =
          st.entries.map GEntry.key := by
        rw [List.map_map]
        apply List.map_congr_left
        intro e _
        by_cases hk : e.key == joinPayloads sub <;> simp [Function.comp, hk]
      rw [this]
      exact hnd
  · rw [if_neg hfind]
    refine ⟨?_, ?_, hfb1 f⟩
    · intro e he
      rcases List.mem_append.1 he with h1 | h1
      · exact hok e h1
      · have : e = ⟨joinPayloads sub, sub, tName st.next, 1⟩ := by simpa using h1
        rw [this]
        exact ⟨hlen, rfl, hsub⟩
    · rw [List.map_append]
      refine List.Nodup.append hnd (List.nodup_singleton _) ?_
      intro a ha hb
      have hak : a = joinPayloads sub := by simpa using hb
      rcases List.mem_map.1 ha with ⟨e, he, hea⟩
      have hf2 := Option.not_isSome_iff_eq_none.1 hfind
      rw [List.find?_eq_none] at hf2
      exact hf2 e he (by rw [hea, hak]; exact beq_self_eq_true _)

theorem fold_gsAdd_inv (trees : List ParseNode) :
    ∀ (l : List (List ParseNode × Bool)) (st : GState),
      GInv trees st →
      (∀ p ∈ l, 2 ≤ p.1.length ∧ isSubrangeOf trees p.1) →
      GInv trees (l.foldl (fun s p => gsAdd s p.1 p.2) st) := by
  intro l
  induction l with
  | nil => intro st h _; exact h
  | cons p rest ih =>
    intro st h hp
    rw [List.foldl_cons]
    refine ih _ ?_ (fun q hq => hp q (List.mem_cons_of_mem _ hq))
    have hpp := hp p (List.mem_cons_self _ _)
    exact gsAdd_inv trees st p.1 p.2 h hpp.1 hpp.2

theorem processChildren_inv (trees : List ParseNode) (cs : List ParseNode) (st : GState)
    (h : GInv trees st)
    (hcs : ∀ i L, 2 ≤ L → i + L ≤ cs.length → isSubrangeOf trees ((cs.drop i).take L)) :
    GInv trees (processChildren cs st) := by
  refine fold_gsAdd_inv trees _ st h ?_
  intro p hp
  rcases subrangesWithFull_mem cs p.1 p.2 hp with ⟨i, L, h2, hle, heq⟩
  constructor
  · rw [heq, take_drop_length cs i L hle]; exact h2
  · rw [heq]; exact hcs i L h2 hle

theorem visitedList_mem_of :
    ∀ (cs : List ParseNode) (c : ParseNode), c ∈ cs → c.isTerminal = false →
      ∀ n ∈ visitedNodes c, n ∈ visitedList cs := by
  intro cs
  induction cs with
  | nil => intro c hc; exact absurd hc (List.not_mem_nil c)
  | cons c0 cs ih =>
    intro c hc hct n hnc
    rw [visitedList]
    rcases List.mem_cons.1 hc with h | h
    · subst h
      apply List.mem_append.2
      left
      rw [if_neg (by simp [hct])]
      exact hnc
    · exact List.mem_append.2 (Or.inr (ih c h hct n hnc))

mutual

theorem addGroups_inv (trees : List ParseNode) :
    ∀ (t : ParseNode) (st : GState), GInv trees st →
      (∀ n ∈ visitedNodes t, ∀ i L, 2 ≤ L → i + L ≤ n.children.length →
        isSubrangeOf trees ((n.children.drop i).take L)) →
      GInv trees (addGroupsForTree t st)
  | .mk p b cs, st => by
    intro h hn
    rw [addGroupsForTree]
    refine addGroupsList_inv trees cs _ ?_ ?_
    · refine processChildren_inv trees cs st h ?_
      intro i L h2 hle
      exact hn (.mk p b cs) (by rw [visitedNodes]; exact List.mem_cons_self _ _) i L h2 hle
    · intro c hc hct n hnc
      refine hn n ?_
      rw [visitedNodes]
      refine List.mem_cons_of_mem _ ?_
      exact visitedList_mem_of cs c hc hct n hnc

theorem addGroupsList_inv (trees : List ParseNode) :
    ∀ (cs : List ParseNode) (st : GState), GInv trees st →
      (∀ c ∈ cs, c.isTerminal = false → ∀ n ∈ visitedNodes c,
        ∀ i L, 2 ≤ L → i + L ≤ n.children.length →
          isSubrangeOf trees ((n.children.drop i).take L)) →
      GInv trees (addGroupsList cs st)
  | [], st => by intro h _; exact h
  | c :: cs, st => by
    intro h hn
    rw [addGroupsList]
    refine addGroupsList_inv trees cs _ ?_ ?_
    · by_cases hct : c.isTerminal
      · rw [if_pos hct]; exact h
      · rw [if_neg hct]
        exact addGroups_inv trees c st h
          (fun n hnc => hn c (List.mem_cons_self _ _) (by simpa using hct) n hnc)
    · intro c2 hc2
      exact hn c2 (List.mem_cons_of_mem _ hc2)

end


theorem rawState_inv (trees : List ParseNode) (tid : Nat) :
    GInv trees (rawState trees tid) := by
  unfold rawState
  have hgen : ∀ (l : List ParseNode) (st : GState), (∀ t ∈ l, t ∈ trees) →
      GInv trees st → GInv trees (l.foldl (fun st t => addGroupsForTree t st) st) := by
    intro l
    induction l with
    | nil => intro st _ h; exact h
    | cons t rest ih =>
      intro st hl h
      rw [List.foldl_cons]
      refine ih _ (fun u hu => hl u (List.mem_cons_of_mem _ hu)) ?_
      refine addGroups_inv trees t st h ?_
      intro n hn i L h2 hle
      exact ⟨t, hl t (List.mem_cons_self _ _), n, hn, i, L, h2, hle, rfl⟩
  refine hgen trees _ (fun t ht => ht) ?_
  exact ⟨fun e he => absurd he (List.not_mem_nil e), List.nodup_nil, List.nodup_nil⟩

theorem gsAdd_mono (st : GState) (sub : List ParseNode) (f : Bool) (k : String)
    (h : hasKeyE st k) : hasKeyE (gsAdd st sub f) k := by
  rcases h with ⟨e, he, hek⟩
  unfold gsAdd
  by_cases hfind : ((st.entries.find? (fun e => e.key == joinPayloads sub)).isSome) = true
  · rw [if_pos hfind]
    by_cases hk : e.key == joinPayloads sub
    · exact ⟨⟨e.key, e.tmpl, e.tid, e.count + 1⟩,
        List.mem_map.2 ⟨e, he, by rw [if_pos hk]⟩, hek⟩
    · exact ⟨e, List.mem_map.2 ⟨e, he, by rw [if_neg hk]⟩, hek⟩
  · rw [if_neg hfind]
    exact ⟨e, List.mem_append.2 (Or.inl he), hek⟩

theorem gsAdd_self (st : GState) (sub : List ParseNode) (f : Bool) :
    hasKeyE (gsAdd st sub f) (joinPayloads sub) := by
  unfold gsAdd
  by_cases hfind : ((st.entries.find? (fun e => e.key == joinPayloads sub)).isSome) = true
  · rw [if_pos hfind]
    rcases Option.isSome_iff_exists.1 hfind with ⟨e0, he0⟩
    have he0m := List.mem_of_find?_eq_some he0
    have he0k : (e0.key == joinPayloads sub) = true :=
      List.find?_some (p := fun e : GEntry => e.key == joinPayloads sub) he0
    exact ⟨⟨e0.key, e0.tmpl, e0.tid, e0.count + 1⟩,
      List.mem_map.2 ⟨e0, he0m, by rw [if_pos he0k]⟩, by simpa using he0k⟩
  · rw [if_neg hfind]
    exact ⟨⟨joinPayloads sub, sub, tName st.next, 1⟩,
      List.mem_append.2 (Or.inr (List.mem_singleton.2 rfl)), rfl⟩

theorem fold_gsAdd_mono :
    ∀ (l : List (List ParseNode × Bool)) (st : GState) (k : String),
      hasKeyE st k → hasKeyE (l.foldl (fun s p => gsAdd s p.1 p.2) st) k := by
  intro l
  induction l with
  | nil => intro st k h; exact h
  | cons p rest ih =>
    intro st k h
    rw [List.foldl_cons]
    exact ih _ k (gsAdd_mono st p.1 p.2 k h)

theorem fold_gsAdd_covers :
    ∀ (l : List (List ParseNode × Bool)) (st : GState) (p : List ParseNode × Bool),
      p ∈ l → hasKeyE (l.foldl (fun s p => gsAdd s p.1 p.2) st) (joinPayloads p.1) := by
  intro l
  induction l with
  | nil => intro st p hp; exact absurd hp (List.not_mem_nil p)
  | cons q rest ih =>
    intro st p hp
    rw [List.foldl_cons]
    rcases List.mem_cons.1 hp with h | h
    · subst h
      exact fold_gsAdd_mono rest _ _ (gsAdd_self st p.1 p.2)
    · exact ih _ p h

theorem processChildren_covers (cs : List ParseNode) (st : GState) (i L : Nat)
    (h2 : 2 ≤ L) (hle : i + L ≤ cs.length) :
    hasKeyE (processChildren cs st) (joinPayloads ((cs.drop i).take L)) :=
  fold_gsAdd_covers _ st _ (subrangesWithFull_mem_of cs i L h2 hle)

theorem processChildren_mono (cs : List ParseNode) (st : GState) (k : String)
    (h : hasKeyE st k) : hasKeyE (processChildren cs st) k :=
  fold_gsAdd_mono _ st k h

mutual

theorem addGroups_mono :
    ∀ (t : ParseNode) (st : GState) (k : String),
      hasKeyE st k → hasKeyE (addGroupsForTree t st) k
  | .mk p b cs, st, k => by
    intro h
    rw [addGroupsForTree]
    exact addGroupsList_mono cs _ k (processChildren_mono cs st k h)

theorem addGroupsList_mono :
    ∀ (cs : List ParseNode) (st : GState) (k : String),
      hasKeyE st k → hasKeyE (addGroupsList cs st) k
  | [], st, k => by intro h; exact h
  | c :: cs, st, k => by
    intro h
    rw [addGroupsList]
    refine addGroupsList_mono cs _ k ?_
    by_cases hct : c.isTerminal
    · rw [if_pos hct]; exact h
    · rw [if_neg hct]; exact addGroups_mono c st k h

end

mutual

theorem addGroups_covers :
    ∀ (t : ParseNode) (st : GState), ∀ n ∈ visitedNodes t, ∀ i L, 2 ≤ L →
      i + L ≤ n.children.length →
      hasKeyE (addGroupsForTree t st) (joinPayloads ((n.children.drop i).take L))
  | .mk p b cs, st => by
    intro n hn i L h2 hle
    rw [addGroupsForTree]
    rw [visitedNodes] at hn
    rcases List.mem_cons.1 hn with h | h
    · subst h
      exact addGroupsList_mono cs _ _ (processChildren_covers cs st i L h2 hle)
    · exact addGroupsList_covers cs _ n h i L h2 hle

theorem addGroupsList_covers :
    ∀ (cs : List ParseNode) (st : GState), ∀ n ∈ visitedList cs, ∀ i L, 2 ≤ L →
      i + L ≤ n.children.length →
      hasKeyE (addGroupsList cs st) (joinPayloads ((n.children.drop i).take L))
  | [], st => by
    intro n hn
    exact absurd hn (List.not_mem_nil n)
  | c :: cs, st => by
    intro n hn i L h2 hle
    rw [visitedList] at hn
    rw [addGroupsList]
    rcases List.mem_append.1 hn with h | h
    · by_cases hct : c.isTerminal
      · rw [if_pos hct] at h
        exact absurd h (List.not_mem_nil n)
      · rw [if_neg hct] at h
        refine addGroupsList_mono cs _ _ ?_
        rw [if_neg hct]
        exact addGroups_covers c st n h i L h2 hle
    · exact addGroupsList_covers cs _ n h i L h2 hle

end

theorem rawState_covers (trees : List ParseNode) (tid : Nat) :
    ∀ t ∈ trees, ∀ n ∈ visitedNodes t, ∀ i L, 2 ≤ L → i + L ≤ n.children.length →
      hasKeyE (rawState trees tid) (joinPayloads ((n.children.drop i).take L)) := by
  unfold rawState
  have hgen : ∀ (l : List ParseNode) (st : GState), ∀ t ∈ l, ∀ n ∈ visitedNodes t,
      ∀ i L, 2 ≤ L → i + L ≤ n.children.length →
      hasKeyE (l.foldl (fun st t => addGroupsForTree t st) st)
        (joinPayloads ((n.children.drop i).take L)) := by
    intro l
    induction l with
    | nil => intro st t ht; exact absurd ht (List.not_mem_nil t)
    | cons t0 rest ih =>
      intro st t ht n hn i L h2 hle
      rw [List.foldl_cons]
      rcases List.mem_cons.1 ht with h | h
      · subst h
        have hgenmono : ∀ (l2 : List ParseNode) (st2 : GState) (k : String),
            hasKeyE st2 k →
            hasKeyE (l2.foldl (fun st t => addGroupsForTree t st) st2) k := by
          intro l2
          induction l2 with
          | nil => intro st2 k h; exact h
          | cons u rest2 ih2 =>
            intro st2 k h
            rw [List.foldl_cons]
            exact ih2 _ k (addGroups_mono u st2 k h)
        exact hgenmono rest _ _ (addGroups_covers t st n hn i L h2 hle)
      · exact ih _ t h n hn i L h2 hle
  intro t ht
  exact hgen trees _ t ht

theorem nodup_key_unique (es : List GEntry) (hnd : (es.map GEntry.key).Nodup) :
    ∀ e ∈ es, ∀ e0 ∈ es, e.key = e0.key → e = e0 := by
  induction es with
  | nil => intro e he; exact absurd he (List.not_mem_nil e)
  | cons a es ih =>
    intro e he e0 he0 hk
    rw [List.map_cons] at hnd
    have hnd2 := List.nodup_cons.1 hnd
    rcases List.mem_cons.1 he with h1 | h1 <;> rcases List.mem_cons.1 he0 with h2 | h2
    · rw [h1, h2]
    · exfalso
      apply hnd2.1
      have hak : a.key = e0.key := by rw [← h1]; exact hk
      rw [hak]
      exact List.mem_map.2 ⟨e0, h2, rfl⟩
    · exfalso
      apply hnd2.1
      have hak : a.key = e.key := by rw [← h2]; exact hk.symm
      rw [hak]
      exact List.mem_map.2 ⟨e, h1, rfl⟩
    · exact ih hnd2.2 e h1 e0 h2 hk

theorem eraseKey_mem (es : List GEntry) (k : String) (e : GEntry) :
    e ∈ eraseKey es k ↔ e ∈ es ∧ e.key ≠ k := by
  unfold eraseKey
  rw [List.mem_filter]
  constructor
  · rintro ⟨h1, h2⟩
    exact ⟨h1, by simpa using h2⟩
  · rintro ⟨h1, h2⟩
    exact ⟨h1, by simpa using h2⟩

theorem eraseKey_keys_nodup (es : List GEntry) (k : String)
    (hnd : (es.map GEntry.key).Nodup) : ((eraseKey es k).map GEntry.key).Nodup :=
  ((List.filter_sublist es).map GEntry.key).nodup hnd

theorem pruneStep_keys_nodup (es : List GEntry) (kv : String × Nat)
    (hnd : (es.map GEntry.key).Nodup) : ((pruneStep es kv).map GEntry.key).Nodup := by
  unfold pruneStep
  cases hf : es.find? (fun e => e.key == kv.1) with
  | none => exact hnd
  | some e0 =>
    dsimp only
    by_cases hc : e0.count == kv.2
    · rw [if_pos hc]; exact eraseKey_keys_nodup es kv.1 hnd
    · rw [if_neg hc]; exact hnd

theorem pruneStep_mem (es : List GEntry) (kv : String × Nat) (e : GEntry)
    (hnd : (es.map GEntry.key).Nodup) :
    e ∈ pruneStep es kv ↔
      e ∈ es ∧ (e.key = kv.1 → e.count ≠ kv.2) := by
  unfold pruneStep
  cases hf : es.find? (fun e => e.key == kv.1) with
  | none =>
    dsimp only
    rw [List.find?_eq_none] at hf
    constructor
    · intro h
      refine ⟨h, fun hk _ => ?_⟩
      exact hf e h (by rw [hk]; exact beq_self_eq_true _)
    · exact fun h => h.1
  | some e0 =>
    dsimp only
    have he0m := List.mem_of_find?_eq_some hf
    have he0k : e0.key = kv.1 := by
      simpa using List.find?_some (p := fun e : GEntry => e.key == kv.1) hf
    by_cases hc : (e0.count == kv.2) = true
    · rw [if_pos hc]
      have hcv : e0.count = kv.2 := by simpa using hc
      rw [eraseKey_mem]
      constructor
      · rintro ⟨h1, h2⟩
        exact ⟨h1, fun hk => absurd hk h2⟩
      · rintro ⟨h1, h2⟩
        refine ⟨h1, ?_⟩
        intro hk
        have : e = e0 := nodup_key_unique es hnd e h1 e0 he0m (by rw [hk, he0k])
        exact (h2 hk) (this ▸ hcv ▸ rfl)
    · rw [if_neg hc]
      constructor
      · intro h
        refine ⟨h, ?_⟩
        intro hk
        have : e = e0 := nodup_key_unique es hnd e h e0 he0m (by rw [hk, he0k])
        rw [this]
        intro habs
        exact hc (by rw [habs]; exact beq_self_eq_true _)
      · exact fun h => h.1

theorem fbLookup_cons (k : String) (v : Nat) (fb : List (String × Nat)) (x : String) :
    fbLookup ((k, v) :: fb) x = if k == x then some v else fbLookup fb x := by
  unfold fbLookup
  rw [List.find?_cons]
  cases h : (k == x) <;> simp [h]

theorem pruneFB_mem_iff :
    ∀ (fb : List (String × Nat)) (entries : List GEntry),
      ((entries.map GEntry.key).Nodup) → ((fb.map Prod.fst).Nodup) →
      ∀ e, e ∈ pruneFB entries fb ↔
        e ∈ entries ∧ fbLookup fb e.key ≠ some e.count := by
  intro fb
  induction fb with
  | nil =>
    intro entries _ _ e
    unfold pruneFB fbLookup
    simp
  | cons kv fb2 ih =>
    intro entries hnd hfbnd e
    obtain ⟨k, v⟩ := kv
    have hstep : pruneFB entries ((k, v) :: fb2) = pruneFB (pruneStep entries (k, v)) fb2 := rfl
    rw [hstep]
    have hndstep := pruneStep_keys_nodup entries (k, v) hnd
    have hfbnd' : (k :: fb2.map Prod.fst).Nodup := by simpa using hfbnd
    have hfbnd2 := (List.nodup_cons.1 hfbnd').2
    have hknotin : k ∉ fb2.map Prod.fst := (List.nodup_cons.1 hfbnd').1
    rw [ih (pruneStep entries (k, v)) hndstep hfbnd2 e]
    rw [pruneStep_mem entries (k, v) e hnd]
    rw [fbLookup_cons]
    by_cases hk : e.key = k
    · have hkk : (k == e.key) = true := by rw [hk]; exact beq_self_eq_true _
      rw [if_pos hkk]
      have hlk2 : fbLookup fb2 e.key = none := by
        unfold fbLookup
        rw [List.find?_eq_none.2]
        · rfl
        · intro kv2 hkv2 habs
          apply hknotin
          have hke : kv2.1 = e.key := by simpa using habs
          exact List.mem_map.2 ⟨kv2, hkv2, hke.trans hk⟩
      rw [hlk2]
      constructor
      · rintro ⟨⟨h1, h2⟩, _⟩
        refine ⟨h1, ?_⟩
        intro habs
        exact h2 hk (by simpa using habs.symm)
      · rintro ⟨h1, h2⟩
        refine ⟨⟨h1, fun _ habs => h2 (by rw [habs])⟩, by simp⟩
    · have hkk : ¬((k == e.key) = true) := by
        intro habs
        have hke : k = e.key := by simpa using habs
        exact hk hke.symm
      rw [if_neg hkk]
      constructor
      · rintro ⟨⟨h1, _⟩, h3⟩
        exact ⟨h1, h3⟩
      · rintro ⟨h1, h2⟩
        exact ⟨⟨h1, fun habs => absurd habs hk⟩, h2⟩

theorem pruneStep_subset (es : List GEntry) (kv : String × Nat) (e : GEntry)
    (h : e ∈ pruneStep es kv) : e ∈ es := by
  unfold pruneStep at h
  cases hf : es.find? (fun e => e.key == kv.1) with
  | none => rw [hf] at h; exact h
  | some e0 =>
    rw [hf] at h
    dsimp only at h
    by_cases hc : (e0.count == kv.2) = true
    · rw [if_pos hc] at h
      exact List.mem_of_mem_filter h
    · rw [if_neg hc] at h
      exact h

theorem pruneFB_subset :
    ∀ (fb : List (String × Nat)) (es : List GEntry) (e : GEntry),
      e ∈ pruneFB es fb → e ∈ es := by
  intro fb
  induction fb with
  | nil => intro es e h; exact h
  | cons kv fb2 ih =>
    intro es e h
    exact pruneStep_subset es kv e (ih (pruneStep es kv) e h)

theorem gKeyGe_total (a b : GEntry) : gKeyGe a b = true ∨ gKeyGe b a = true := by
  unfold gKeyGe
  simp only [Bool.or_eq_true, Bool.and_eq_true, decide_eq_true_eq, beq_iff_eq]
  omega

theorem gKeyGe_trans (a b c : GEntry) (h1 : gKeyGe a b = true) (h2 : gKeyGe b c = true) :
    gKeyGe a c = true := by
  unfold gKeyGe at h1 h2 ⊢
  simp only [Bool.or_eq_true, Bool.and_eq_true, decide_eq_true_eq, beq_iff_eq] at h1 h2 ⊢
  omega

theorem insertDesc_mem (x : GEntry) :
    ∀ (l : List GEntry) (e : GEntry), e ∈ insertDesc x l ↔ e = x ∨ e ∈ l := by
  intro l
  induction l with
  | nil => intro e; simp [insertDesc]
  | cons y ys ih =>
    intro e
    rw [insertDesc]
    by_cases h : gKeyGe y x = true
    · rw [if_pos h]
      rw [List.mem_cons, ih e, List.mem_cons]
      tauto
    · rw [if_neg h]
      simp only [List.mem_cons]

theorem insertDesc_pairwise (x : GEntry) :
    ∀ (l : List GEntry), l.Pairwise (fun a b => gKeyGe a b = true) →
      (insertDesc x l).Pairwise (fun a b => gKeyGe a b = true) := by
  intro l
  induction l with
  | nil => intro _; exact List.pairwise_singleton _ x
  | cons y ys ih =>
    intro hp
    rcases List.pairwise_cons.1 hp with ⟨hy, hys⟩
    rw [insertDesc]
    by_cases h : gKeyGe y x = true
    · rw [if_pos h]
      refine List.pairwise_cons.2 ⟨?_, ih hys⟩
      intro z hz
      rcases (insertDesc_mem x ys z).1 hz with h1 | h1
      · rw [h1]; exact h
      · exact hy z h1
    · rw [if_neg h]
      have hxy : gKeyGe x y = true := by
        rcases gKeyGe_total x y with h1 | h1
        · exact h1
        · exact absurd h1 h
      refine List.pairwise_cons.2 ⟨?_, hp⟩
      intro z hz
      rcases List.mem_cons.1 hz with h1 | h1
      · rw [h1]; exact hxy
      · exact gKeyGe_trans x y z hxy (hy z h1)

theorem sortDesc_fold_mem :
    ∀ (l acc : List GEntry) (e : GEntry),
      e ∈ l.foldl (fun acc x => insertDesc x acc) acc ↔ e ∈ acc ∨ e ∈ l := by
  intro l
  induction l with
  | nil => intro acc e; simp
  | cons x xs ih =>
    intro acc e
    rw [List.foldl_cons, ih, insertDesc_mem]
    simp only [List.mem_cons]
    tauto

theorem sortDesc_mem (l : List GEntry) (e : GEntry) : e ∈ sortDesc l ↔ e ∈ l := by
  unfold sortDesc
  rw [sortDesc_fold_mem]
  simp

theorem sortDesc_pairwise (l : List GEntry) :
    (sortDesc l).Pairwise (fun a b => gKeyGe a b = true) := by
  unfold sortDesc
  have hgen : ∀ (l2 acc : List GEntry), acc.Pairwise (fun a b => gKeyGe a b = true) →
      (l2.foldl (fun acc x => insertDesc x acc) acc).Pairwise
        (fun a b => gKeyGe a b = true) := by
    intro l2
    induction l2 with
    | nil => intro acc h; exact h
    | cons x xs ih =>
      intro acc h
      rw [List.foldl_cons]
      exact ih _ (insertDesc_pairwise x acc h)
  exact hgen l [] List.Pairwise.nil

/-! ## Claim theorem: group -/

/-- C5: `group` (i) produces only groupings whose stored template is a
contiguous child sub-range of length ≥ 2 of a visited node, keyed by its
payload concatenation — in particular a grouping of length 1 is never
produced; (ii) enumerates every such sub-range of every visited node (its
key is present in the pre-pruning `groups` dict); (iii) keeps exactly the
enumerated groupings whose total count differs from their `full_bubbles`
count; and (iv) returns them sorted by count descending then template length
descending. -/
theorem C5_group_enumeration_prune_sort (trees : List ParseNode) (tid : Nat) :
    (∀ e ∈ group trees tid,
        2 ≤ e.tmpl.length ∧ e.key = joinPayloads e.tmpl ∧ isSubrangeOf trees e.tmpl) ∧
    (∀ t ∈ trees, ∀ n ∈ visitedNodes t, ∀ i L, 2 ≤ L → i + L ≤ n.children.length →
        ∃ e ∈ (rawState trees tid).entries,
          e.key = joinPayloads ((n.children.drop i).take L)) ∧
    (∀ e, e ∈ group trees tid ↔
        e ∈ (rawState trees tid).entries ∧
          fbLookup ((rawState trees tid).fb) e.key ≠ some e.count) ∧
    (group trees tid).Pairwise (fun a b => gKeyGe a b = true) := by
  obtain ⟨hok, hnd, hfbnd⟩ := rawState_inv trees tid
  have hgroup : group trees tid =
      sortDesc (pruneFB (rawState trees tid).entries ((rawState trees tid).fb)) := rfl
  have hmem : ∀ e, e ∈ group trees tid ↔
      e ∈ (rawState trees tid).entries ∧
        fbLookup ((rawState trees tid).fb) e.key ≠ some e.count := by
    intro e
    rw [hgroup, sortDesc_mem]
    exact pruneFB_mem_iff _ _ hnd hfbnd e
  refine ⟨?_, ?_, hmem, ?_⟩
  · intro e he
    exact hok e ((hmem e).1 he).1
  · intro t ht n hn i L h2 hle
    exact rawState_covers trees tid t ht n hn i L h2 hle
  · rw [hgroup]
    exact sortDesc_pairwise _

/-- Witness for C5 on the tree `t0 -> a b a b`: the grouping keyed `ab`
(count 2) survives with a length-2 template that is a child sub-range, and
the sub-range at `(i, L) = (0, 2)` was enumerated. -/
theorem C5_witness :
    (2 ≤ (⟨"ab", [leaf "a", leaf "b"], "t5", 2⟩ : GEntry).tmpl.length ∧
      (⟨"ab", [leaf "a", leaf "b"], "t5", 2⟩ : GEntry).key =
        joinPayloads ((⟨"ab", [leaf "a", leaf "b"], "t5", 2⟩ : GEntry).tmpl) ∧
      isSubrangeOf [treeABAB] ((⟨"ab", [leaf "a", leaf "b"], "t5", 2⟩ : GEntry).tmpl)) ∧
    (∃ e ∈ (rawState [treeABAB] 5).entries,
      e.key = joinPayloads ((treeABAB.children.drop 0).take 2)) :=
  ⟨(C5_group_enumeration_prune_sort [treeABAB] 5).1 ⟨"ab", [leaf "a", leaf "b"], "t5", 2⟩
      (by decide),
   (C5_group_enumeration_prune_sort [treeABAB] 5).2.1 treeABAB (by decide) treeABAB
      (by decide) 0 2 (by decide) (by decide)⟩
